import Mathlib

/-!
# PFM codec (`PFMTools.cpp`, `PFMTools.hpp`)

A shallow embedding of `PFM::Reader::_load` and `PFM::Reader::_createPFMData`.

Modelling conventions.

* A byte is a natural number (a real buffer only holds values below 256; nothing
  below depends on that bound).  Text is written as its ASCII codes.
* `_load` receives a raw pointer and a length.  The pointer is modelled by the list of
  bytes that can be read starting at that address (`none` for the null pointer); the
  list continues past position `size` with whatever follows the buffer in memory, and
  reading past the end of the list yields the byte 0.
* A `float` pixel is only ever moved with `memcpy` and byte-swapped, so it is modelled
  by the four bytes of its object representation, in address order (`Cell`).
* The `float` scaler is compared, printed and parsed, so it is modelled by its IEEE-754
  binary32 fields (`Float32`).
* `uint32_t` arithmetic is arithmetic on naturals reduced modulo `2^32`.
* A `memcpy` that writes outside a `std::vector`, or reads outside the pixel vector, is
  not checked by the code and its behaviour is undefined in C++.  The run of the model
  ends there with `Failure.memory_fault`, which stands for whatever the machine does
  next (a trap, or a silent access to neighbouring memory and a normal return): a
  statement about results `.ok` describes the runs without such an access.  A C++
  exception is a `Failure.invalid_argument`.
-/

set_option autoImplicit false

namespace PFM

/-! ## Data model -/

/-- Ways in which a run of the model ends without a result: a thrown exception, or a
`memcpy` outside a vector (undefined behaviour in C++, see the conventions above). -/
inductive Failure where
  | invalid_argument (what : String)
  | memory_fault
deriving DecidableEq

deriving instance DecidableEq for Except

/-- Object representation of one 32-bit `float`: its four bytes in address order. -/
structure Cell where
  b0 : Nat
  b1 : Nat
  b2 : Nat
  b3 : Nat
deriving DecidableEq

/-- The value-initialised `float` (`0.0f`), as produced by `std::vector::resize`. -/
def Cell.zero : Cell := ⟨0, 0, 0, 0⟩

/-- The four bytes of a cell, lowest address first. -/
def Cell.bytes (c : Cell) : List Nat := [c.b0, c.b1, c.b2, c.b3]

/-- `__builtin_bswap32` applied in place to the 32-bit object: its bytes are reversed. -/
def __builtin_bswap32 (c : Cell) : Cell := ⟨c.b3, c.b2, c.b1, c.b0⟩

/-- IEEE-754 binary32 value given by its sign bit, biased exponent field and fraction
field. -/
structure Float32 where
  sign : Bool
  expo : Fin 256
  frac : Fin 8388608
deriving DecidableEq

namespace Float32

/-- Positive zero, the default value of `PFMData::scaler`. -/
def zero : Float32 := ⟨false, 0, 0⟩

/-- Positive infinity. -/
def inf : Float32 := ⟨false, 255, 0⟩

/-- A quiet NaN. -/
def nan : Float32 := ⟨false, 255, 4194304⟩

/-- The value is a NaN. -/
def isNaN (x : Float32) : Bool := x.expo.val == 255 && x.frac.val != 0

/-- The value is `+0.0` or `-0.0`. -/
def isZero (x : Float32) : Bool := x.expo.val == 0 && x.frac.val == 0

/-- The comparison `x > 0` of C++. -/
def gt0 (x : Float32) : Bool := !x.sign && !x.isNaN && !x.isZero

/-- The comparison `x <= 0` of C++. -/
def le0 (x : Float32) : Bool := !x.isNaN && (x.sign || x.isZero)

/-- The comparison `x >= 0` of C++. -/
def ge0 (x : Float32) : Bool := !x.isNaN && (!x.sign || x.isZero)

/-- The comparison `x < 0` of C++. -/
def lt0 (x : Float32) : Bool := x.sign && !x.isNaN && !x.isZero

/-- The floating-point overload `abs(float)`, which the C++ library headers of the
project's platform declare in the global namespace: the sign bit is cleared. -/
def abs (x : Float32) : Float32 := { x with sign := false }

/-- Significand of a finite value, as an integer: the value is
`significand * 2 ^ (scale - 150)`. -/
def significand (x : Float32) : Nat :=
  if x.expo.val = 0 then x.frac.val else 8388608 + x.frac.val

/-- Binary scale of a finite value, see `significand`. -/
def scale (x : Float32) : Nat := if x.expo.val = 0 then 1 else x.expo.val

end Float32

/-- The struct `PFMData` of `PFMTools.hpp` with its default member initialisers. -/
structure PFMData where
  width : Nat := 0
  height : Nat := 0
  scaler : Float32 := Float32.zero
  pixels : List Cell := []
deriving DecidableEq

namespace PFMData

/-- `isValid()`: the pixel vector is not empty. -/
def isValid (d : PFMData) : Bool := !d.pixels.isEmpty

/-- `pixelCount()`: the `uint32_t` product `width * height`, widened to `size_t`. -/
def pixelCount (d : PFMData) : Nat := (d.width * d.height) % 2 ^ 32

/-- `dataSize()`: `pixelCount() * sizeof(float)`. -/
def dataSize (d : PFMData) : Nat := d.pixelCount * 4

end PFMData

/-! ## Host byte order -/

/-- Byte order of the machine that runs the code. -/
inductive ByteOrder where
  | little
  | big
deriving DecidableEq

/-- Object representation of a `uint32_t` on the given host, lowest address first. -/
def uint32Bytes (host : ByteOrder) (v : Nat) : List Nat :=
  let le := [v % 256, v / 256 % 256, v / 65536 % 256, v / 16777216 % 256]
  match host with
  | .little => le
  | .big => le.reverse

/-- `isSystemLittleEndian()`: the union `test = {0x01020304}` is read back through its
`char` array and `test.c[0] == 0x04` is returned. -/
def isSystemLittleEndian (host : ByteOrder) : Bool :=
  (uint32Bytes host 0x01020304).headD 0 == 0x04

/-! ## Text produced by the C++ library (`std::to_string`, `std::format`) -/

/-- Decimal digits of `n`, most significant first, as ASCII codes; the first argument
bounds the number of digits. -/
def decimalDigits : Nat → Nat → List Nat
  | 0, n => [48 + n % 10]
  | fuel + 1, n =>
    if n < 10 then [48 + n] else decimalDigits fuel (n / 10) ++ [48 + n % 10]

/-- `std::to_string` of an unsigned integer. -/
def to_string (n : Nat) : List Nat := decimalDigits n n

/-- The six decimal digits of a number below `10^6`, with leading zeros. -/
def sixDigits (n : Nat) : List Nat :=
  [48 + n / 100000 % 10, 48 + n / 10000 % 10, 48 + n / 1000 % 10,
   48 + n / 100 % 10, 48 + n / 10 % 10, 48 + n % 10]

/-- The quotient `n / d` rounded to the nearest integer, ties to even. -/
def roundHalfEven (n d : Nat) : Nat :=
  let q := n / d
  let r := n % d
  if d < 2 * r ∨ (2 * r = d ∧ q % 2 = 1) then q + 1 else q

/-- `std::format("{:f}", x)` for a `float`: fixed notation with six fractional digits,
correctly rounded; `inf` and `nan` for the special values; a leading `-` when the sign
bit is set. -/
def format_f (x : Float32) : List Nat :=
  (if x.sign then [45] else []) ++
  if x.expo.val = 255 then
    (if x.frac.val = 0 then [105, 110, 102] else [110, 97, 110])
  else
    let q := roundHalfEven (x.significand * 10 ^ 6 * 2 ^ (x.scale - 150)) (2 ^ (150 - x.scale))
    to_string (q / 10 ^ 6) ++ [46] ++ sixDigits (q % 10 ^ 6)

/-! ## Text consumed by the C library (`strncmp`, `sscanf`) -/

/-- `isdigit` in the C locale. -/
def isdigit (c : Nat) : Bool := decide (48 ≤ c) && decide (c ≤ 57)

/-- `isspace` in the C locale: space, `\t`, `\n`, `\v`, `\f`, `\r`. -/
def isspace (c : Nat) : Bool := c == 32 || (decide (9 ≤ c) && decide (c ≤ 13))

/-- `tolower` in the C locale. -/
def tolower (c : Nat) : Nat := if 65 ≤ c ∧ c ≤ 90 then c + 32 else c

/-- Value of a decimal digit. -/
def decval (c : Nat) : Option Nat := if isdigit c then some (c - 48) else none

/-- Value of a hexadecimal digit. -/
def hexval (c : Nat) : Option Nat :=
  if isdigit c then some (c - 48)
  else if 97 ≤ c ∧ c ≤ 102 then some (c - 87)
  else if 65 ≤ c ∧ c ≤ 70 then some (c - 55)
  else none

/-- White space skipped by `sscanf` before a conversion or for a blank in the format. -/
def skipSpace : List Nat → List Nat
  | [] => []
  | c :: cs => if isspace c then skipSpace cs else c :: cs

/-- An optional sign: whether it is `-`, and the text after it. -/
def scanSign : List Nat → Bool × List Nat
  | 45 :: t => (true, t)
  | 43 :: t => (false, t)
  | s => (false, s)

/-- The longest run of digits at the head of the text: the number it denotes in the
given base (continuing from `acc`), its length (continuing from `cnt`) and the rest. -/
def scanDigits (val : Nat → Option Nat) (base : Nat) :
    Nat → Nat → List Nat → Nat × Nat × List Nat
  | acc, cnt, [] => (acc, cnt, [])
  | acc, cnt, c :: cs =>
    match val c with
    | some d => scanDigits val base (acc * base + d) (cnt + 1) cs
    | none => (acc, cnt, c :: cs)

/-- The conversion `%u` of `sscanf`: white space is skipped, then an optionally signed
run of decimal digits is converted as by `strtoul` on a 64-bit `unsigned long` (saturating
at `2^64 - 1`, a `-` negating modulo `2^64`) and stored in a `uint32_t`.  The result is
the stored value and the text left, `none` on a matching failure. -/
def scanUnsigned (s : List Nat) : Option (Nat × List Nat) :=
  let (neg, t) := scanSign (skipSpace s)
  let (v, cnt, rest) := scanDigits decval 10 0 0 t
  if cnt = 0 then none
  else
    let u := if 2 ^ 64 ≤ v then 2 ^ 64 - 1 else if neg then (2 ^ 64 - v) % 2 ^ 64 else v
    some (u % 2 ^ 32, rest)

/-- `sscanf(ptr, "%u %u", &w, &h)`: the values stored, in order.  The number of values
is the count `sscanf` returns (an input failure, `EOF`, also stores nothing). -/
def sscanf_u_u (s : List Nat) : List Nat :=
  match scanUnsigned s with
  | none => []
  | some (w, rest) =>
    match scanUnsigned (skipSpace rest) with
    | none => [w]
    | some (h, _) => [w, h]

/-- Position of the highest set bit of `n` (0 for `n < 2`); the first argument bounds the
number of halvings, and `n` itself is always enough. -/
def highBit : Nat → Nat → Nat
  | 0, _ => 0
  | fuel + 1, n => if n < 2 then 0 else highBit fuel (n / 2) + 1

/-- The binary32 value nearest to `num / den` (ties to even), with sign bit clear;
overflow gives infinity.  With `N = num * 2^149`, a finite binary32 magnitude is
`m * 2^E / 2^149` for `m < 2^24`. -/
def roundToBinary32 (num den : Nat) : Float32 :=
  let N := num * 2 ^ 149
  let l0 := highBit N N - highBit den den
  let l := if den * 2 ^ l0 ≤ N then l0 else l0 - 1
  let E := l - 23
  let m := roundHalfEven N (den * 2 ^ E)
  let E := if 2 ^ 24 ≤ m then E + 1 else E
  let m := if 2 ^ 24 ≤ m then m / 2 else m
  if m < 2 ^ 23 then ⟨false, 0, Fin.ofNat m⟩
  else if 254 ≤ E then Float32.inf
  else ⟨false, Fin.ofNat (E + 1), Fin.ofNat (m - 2 ^ 23)⟩

/-- An exponent part `e[sign]digits` (marker `e` or `p`, either case): its value, or 0
when the marker is not followed by an optionally signed digit. -/
def scanExponent (marker : Nat) (s : List Nat) : Int :=
  match s with
  | [] => 0
  | c :: t =>
    if tolower c = marker then
      let (neg, u) := scanSign t
      let (v, cnt, _) := scanDigits decval 10 0 0 u
      if cnt = 0 then 0 else if neg then -(v : Int) else (v : Int)
    else 0

/-- The magnitude `mant * base ^ x` rounded to binary32. -/
def scaledToBinary32 (mant base : Nat) (x : Int) : Float32 :=
  if 0 ≤ x then roundToBinary32 (mant * base ^ x.toNat) 1
  else roundToBinary32 mant (base ^ (-x).toNat)

/-- A decimal magnitude `digits[.digits][e[sign]digits]` with at least one digit. -/
def scanDecimal (s : List Nat) : Option Float32 :=
  let (ip, n1, r1) := scanDigits decval 10 0 0 s
  let (mant, n2, r2) :=
    match r1 with
    | 46 :: t => scanDigits decval 10 ip 0 t
    | _ => (ip, 0, r1)
  if n1 + n2 = 0 then none
  else some (scaledToBinary32 mant 10 (scanExponent 101 r2 - (n2 : Int)))

/-- A hexadecimal magnitude `0x hexdigits[.hexdigits][p[sign]digits]` with at least one
hexadecimal digit. -/
def scanHex (s : List Nat) : Option Float32 :=
  match s with
  | 48 :: x :: t =>
    if tolower x = 120 then
      let (ip, n1, r1) := scanDigits hexval 16 0 0 t
      let (mant, n2, r2) :=
        match r1 with
        | 46 :: u => scanDigits hexval 16 ip 0 u
        | _ => (ip, 0, r1)
      if n1 + n2 = 0 then none
      else some (scaledToBinary32 mant 2 (scanExponent 112 r2 - 4 * (n2 : Int)))
    else none
  | _ => none

/-- The magnitude part of a floating-point input item, as accepted by `strtof`:
`inf`/`infinity`, `nan`, a hexadecimal or a decimal number; the longest prefix that is a
number is converted.  C libraries differ on two malformed items, `0x` without a
hexadecimal digit and `inf` followed by an incomplete `inity`: they are converted here
(to 0 and to infinity), while a library that first reads the whole input item reports a
matching failure. -/
def scanMagnitude (s : List Nat) : Option Float32 :=
  match s with
  | a :: b :: c :: _ =>
    if tolower a = 105 ∧ tolower b = 110 ∧ tolower c = 102 then some Float32.inf
    else if tolower a = 110 ∧ tolower b = 97 ∧ tolower c = 110 then some Float32.nan
    else (scanHex s).orElse (fun _ => scanDecimal s)
  | _ => (scanHex s).orElse (fun _ => scanDecimal s)

/-- `sscanf(ptr, "%f", &scale)`: white space is skipped, then the longest prefix that
`strtof` accepts is converted; `none` when nothing is stored (the call does not
return 1). -/
def sscanf_f (s : List Nat) : Option Float32 :=
  let (neg, t) := scanSign (skipSpace s)
  (scanMagnitude t).map (fun m => { m with sign := neg })

/-- `std::strncmp(s, t, n)`: the difference of the first bytes that differ among the
first `n`, comparison stopping after a NUL; the end of a list reads as NUL. -/
def strncmp : List Nat → List Nat → Nat → Int
  | _, _, 0 => 0
  | s, t, n + 1 =>
    if s.headD 0 ≠ t.headD 0 then (s.headD 0 : Int) - (t.headD 0 : Int)
    else if s.headD 0 = 0 then 0
    else strncmp s.tail t.tail n

/-! ## Memory -/

/-- The byte `*ptr` at offset `ptr` from `data`. -/
def deref (mem : List Nat) (ptr : Nat) : Nat := mem.getD ptr 0

/-- The loop `while (*ptr != '\n' && ptr < data + size) ptr++;`: the final offset.  The
first argument bounds the number of iterations; `size - ptr` of them are enough, since
the loop stops once `ptr` reaches `size`. -/
def scanToNewline (mem : List Nat) (size : Nat) : Nat → Nat → Nat
  | 0, ptr => ptr
  | fuel + 1, ptr =>
    if deref mem ptr ≠ 10 ∧ ptr < size then scanToNewline mem size fuel (ptr + 1) else ptr

/-- The `float` object stored at byte offset `off`. -/
def readCell (mem : List Nat) (off : Nat) : Cell :=
  ⟨deref mem off, deref mem (off + 1), deref mem (off + 2), deref mem (off + 3)⟩

/-- The `n` consecutive `float` objects starting at `src + k`, where `src` points at byte
offset `start`. -/
def readRow (mem : List Nat) (start k n : Nat) : List Cell :=
  (List.range n).map (fun i => readCell mem (start + 4 * (k + i)))

/-- The `n` consecutive elements of a vector starting at index `k`, as `memcpy` reads
them.  The code does not check the range: a read outside the vector is undefined
behaviour (a real run may return neighbouring heap bytes), and the run of the model
ends with `memory_fault`. -/
def readCells (v : List Cell) (k n : Nat) : Except Failure (List Cell) :=
  if k + n ≤ v.length then .ok ((v.drop k).take n) else .error .memory_fault

/-- `std::memcpy(&v[k], row, row.size() * sizeof(float))`: the elements `k ..` of the
vector are overwritten by `row`.  The code does not check the range: a write outside the
vector is undefined behaviour (a real run may overwrite neighbouring memory and go on),
and the run of the model ends with `memory_fault`. -/
def memcpyCells (v : List Cell) (k : Nat) (row : List Cell) : Except Failure (List Cell) :=
  if k + row.length ≤ v.length then .ok (v.take k ++ row ++ v.drop (k + row.length))
  else .error .memory_fault

/-- The loop `for (uint32_t y = 0; y < n; ++y) body(y)` over a state that may fail. -/
def forUpTo {σ ε : Type} (body : Nat → σ → Except ε σ) : Nat → σ → Except ε σ
  | 0, s => .ok s
  | n + 1, s => forUpTo body n s >>= body n

/-! ## `Reader::_load` -/

namespace Reader

/-- One iteration of the `FlipY` loop of `_load`: row `y` of the payload is copied to
row `height - 1 - y` of `result.pixels`; both offsets are `uint32_t` products. -/
def loadRow (mem : List Nat) (dataStart width height : Nat) (y : Nat)
    (pixels : List Cell) : Except Failure (List Cell) :=
  let targetY := height - 1 - y
  memcpyCells pixels ((targetY * width) % 2 ^ 32)
    (readRow mem dataStart ((y * width) % 2 ^ 32) width)

/-- `Reader::_load(data, size)` on the given host. -/
def _load (host : ByteOrder) (data : Option (List Nat)) (size : Nat) :
    Except Failure PFMData :=
  let result : PFMData := {}
  match data with
  | none => .ok result
  | some mem =>
    if strncmp mem [80, 102] 2 ≠ 0 then .ok result else
    let ptr := scanToNewline mem size size 0
    if deref mem ptr ≠ 10 then .ok result else
    let ptr := ptr + 1
    -- The second line
    match sscanf_u_u (mem.drop ptr) with
    | [w, h] =>
      let result := { result with width := w, height := h }
      -- Move to the next line
      let ptr := scanToNewline mem size (size - ptr) ptr
      if deref mem ptr ≠ 10 then .ok result else
      let ptr := ptr + 1
      -- Third line - scaler
      match sscanf_f (mem.drop ptr) with
      | none => .ok result
      | some scale =>
        let isBigEndian := scale.gt0
        let result := { result with scaler := scale.abs }
        -- Move to the next line
        let ptr := scanToNewline mem size (size - ptr) ptr
        if deref mem ptr ≠ 10 then .ok result else
        let ptr := ptr + 1
        let pixelCount := (result.width * result.height) % 2 ^ 32
        let expectedSize := pixelCount * 4
        let dataStart := ptr
        if dataStart + expectedSize > size then .ok result else
        -- NOTICE: Flip Y axis since rows ordered bottom to top
        match forUpTo (loadRow mem dataStart result.width result.height) result.height
            (List.replicate pixelCount Cell.zero) with
        | .error e => .error e
        | .ok pixels =>
          -- Convert if the endianness of the PFM file differs from the system's.
          if isBigEndian != !isSystemLittleEndian host then
            .ok { result with pixels := pixels.map __builtin_bswap32 }
          else .ok { result with pixels := pixels }
    | [w] => .ok { result with width := w }
    | _ => .ok result

end Reader

/-! ## `Reader::_createPFMData` -/

namespace Reader

/-- One iteration of the copy loop of `_createPFMData`: row `y` of `data.pixels` is
copied to row `height - 1 - y` of the payload; both offsets are `uint32_t` products. -/
def storeRow (data : PFMData) (y : Nat) (payload : List Cell) :
    Except Failure (List Cell) :=
  let targetY := data.height - 1 - y
  readCells data.pixels ((y * data.width) % 2 ^ 32) data.width >>=
    memcpyCells payload ((targetY * data.width) % 2 ^ 32)

/-- The text `header` built by `_createPFMData`. -/
def header (data : PFMData) : List Nat :=
  [80, 102, 10] ++ (to_string data.width ++ [32] ++ to_string data.height ++ [10])
    ++ ([45] ++ format_f data.scaler ++ [10])

/-- `Reader::_createPFMData(data)`: the bytes returned, `invalid_argument` when the
exception is thrown.  The payload region of the result (`dataSize()` zero bytes after
the header) is held as `pixelCount()` cells until the rows are copied. -/
def _createPFMData (data : PFMData) : Except Failure (List Nat) :=
  if !data.isValid then .ok [] else
  if data.scaler.le0 then .error (.invalid_argument "scaler must greater than 0") else
  -- Copy pixel data
  match forUpTo (storeRow data) data.height (List.replicate data.pixelCount Cell.zero) with
  | .error e => .error e
  | .ok payload => .ok (header data ++ (payload.map Cell.bytes).flatten)

end Reader

/-! ## `Reader::saveToFile` -/

namespace Reader

/-- `Reader::saveToFile(filepath, data)`: the returned flag and the bytes handed to
`file.write`.  The file system is represented by what it answers: whether the
`std::ofstream` opens and whether it is still `good()` after the write. -/
def saveToFile (opens good : Bool) (data : PFMData) : Except Failure (Bool × List Nat) :=
  match _createPFMData data with
  | .error e => .error e
  | .ok buffer =>
    if buffer.isEmpty then .ok (false, [])
    else if !opens then .ok (false, [])
    else .ok (good, buffer)

end Reader

/-! ## Vocabulary of the statements -/

/-- The payload bytes that hold the given `float` objects one after the other. -/
def payloadBytes (cells : List Cell) : List Nat := (cells.map Cell.bytes).flatten

/-- Three header lines, each ended by a newline: the given first line, then
`"<width> <height>"`, then the scale field. -/
def headerLines (first : List Nat) (width height : Nat) (scaleField : List Nat) : List Nat :=
  (first ++ [10]) ++ (to_string width ++ [32] ++ to_string height ++ [10])
    ++ (scaleField ++ [10])

/-- The header text of the file format: `"Pf\n"`, `"<width> <height>\n"` and the scale
field followed by `"\n"`. -/
def headerText (width height : Nat) (scaleField : List Nat) : List Nat :=
  headerLines [80, 102] width height scaleField

/-- The image obtained from `cells` (rows of `width` cells) by reversing the order of
its `height` rows: position `i` holds the cell of row `height - 1 - i / width`, column
`i % width`. -/
def flipRows (width height : Nat) (cells : List Cell) : List Cell :=
  (List.range (width * height)).map
    (fun i => cells.getD ((height - 1 - i / width) * width + i % width) Cell.zero)

/-- The `float` object whose 32 bits are the number `v`, as it lies in the memory of
the given host. -/
def wordCell (host : ByteOrder) (v : Nat) : Cell :=
  match uint32Bytes host v with
  | [a, b, c, d] => ⟨a, b, c, d⟩
  | _ => Cell.zero

/-- The payload bytes that hold the 32-bit numbers `words` in the given byte order. -/
def wordBytes (order : ByteOrder) (words : List Nat) : List Nat :=
  (words.map (uint32Bytes order)).flatten

/-- The `float` 1.0 in the memory of a little-endian host (`0x3F800000`). -/
def Cell.one : Cell := ⟨0, 0, 128, 63⟩

/-- A 2 x 2 image whose top row is all 1.0 and whose bottom row is all 0.0, with
scaler 1.0, as it lies in the memory of a little-endian host. -/
def topOneBottomZero : PFMData :=
  { width := 2, height := 2, scaler := ⟨false, 127, 0⟩,
    pixels := [Cell.one, Cell.one, Cell.zero, Cell.zero] }


/-- The number of millionths that `std::format("{:f}", x)` prints for a finite `x`:
the magnitude of `x` times `10^6`, rounded to the nearest integer, ties to even. -/
def sixDecimals (x : Float32) : Nat :=
  roundHalfEven (x.significand * 10 ^ 6 * 2 ^ (x.scale - 150)) (2 ^ (150 - x.scale))


/-- The offset at which the first newline loop of `_load` stops. -/
def newline1 (mem : List Nat) (size : Nat) : Nat := scanToNewline mem size size 0

/-- The offset at which the second newline loop of `_load` stops; it starts right after
the first newline. -/
def newline2 (mem : List Nat) (size : Nat) : Nat :=
  scanToNewline mem size (size - (newline1 mem size + 1)) (newline1 mem size + 1)

/-- The offset at which the third newline loop of `_load` stops; it starts right after
the second newline. -/
def newline3 (mem : List Nat) (size : Nat) : Nat :=
  scanToNewline mem size (size - (newline2 mem size + 1)) (newline2 mem size + 1)

/-! ## The SDF pipeline

`SDFExecutor.h` only declares the class; the file that implements
`generateSDFFromImage:threshold:outputBuffer:` and the compute kernels is not among the
sources. -/

/-- Modelled from the spec: the configuration held by an `SDFExecutor` (PipelineConfig).
The header declares the properties `Iwidth`, `Iheight`, `Owidth`, `Oheight` and `spread`,
all of type `NSUInteger`; the implementation of the class is missing. -/
structure SDFExecutor where
  Iwidth : Nat
  Iheight : Nat
  Owidth : Nat
  Oheight : Nat
  spread : Nat
deriving DecidableEq

namespace SDFExecutor

/-- Modelled from the spec: the seed test of the missing implementation, "a pixel is a
seed iff its sample >= t"; the mask is read in row-major order. -/
def isSeed (imageData : List Nat) (threshold i : Nat) : Bool :=
  decide (threshold ≤ imageData.getD i 0)

/-- Modelled from the spec: the seed-init pass of the missing implementation.  A seed
records itself as its nearest seed coordinate, every other pixel is marked unknown
(`none`). -/
def seedInit (e : SDFExecutor) (imageData : List Nat) (threshold : Nat) :
    List (Option (Nat × Nat)) :=
  (List.range (e.Iwidth * e.Iheight)).map fun i =>
    if isSeed imageData threshold i then some (i % e.Iwidth, i / e.Iwidth) else none

/-- Modelled from the spec: the squared Euclidean distance between two pixel coordinates,
by which the missing jump-flood kernel compares candidates. -/
def sqDist (p q : Nat × Nat) : Nat :=
  ((p.1 : Int) - (q.1 : Int)).natAbs ^ 2 + ((p.2 : Int) - (q.2 : Int)).natAbs ^ 2

/-- Modelled from the spec: the choice made by the missing jump-flood kernel between the
current best and a neighbour's record: the neighbour's seed is adopted when it is strictly
closer to the pixel `p`, ties keep the existing choice. -/
def closer (p : Nat × Nat) (best cand : Option (Nat × Nat)) : Option (Nat × Nat) :=
  match cand, best with
  | none, _ => best
  | some c, none => some c
  | some c, some b => if sqDist p c < sqDist p b then some c else some b

/-- Modelled from the spec: the neighbours that the missing jump-flood kernel examines,
"the eight (or fewer, at image edges) neighbors offset by ±step in x and/or y". -/
def neighbours (e : SDFExecutor) (step x y : Nat) : List (Nat × Nat) :=
  ([(-1, -1), (0, -1), (1, -1), (-1, 0), (1, 0), (-1, 1), (0, 1), (1, 1)] :
      List (Int × Int)).filterMap fun d =>
    let nx := (x : Int) + d.1 * (step : Int)
    let ny := (y : Int) + d.2 * (step : Int)
    if 0 ≤ nx ∧ nx < (e.Iwidth : Int) ∧ 0 ≤ ny ∧ ny < (e.Iheight : Int)
    then some (nx.toNat, ny.toNat) else none

/-- Modelled from the spec: one jump-flood pass of the missing implementation; it reads
the buffer of the previous pass and writes a new one (a full barrier between passes). -/
def jumpFlood (e : SDFExecutor) (step : Nat) (buf : List (Option (Nat × Nat))) :
    List (Option (Nat × Nat)) :=
  (List.range (e.Iwidth * e.Iheight)).map fun i =>
    (e.neighbours step (i % e.Iwidth) (i / e.Iwidth)).foldl
      (fun best n => closer (i % e.Iwidth, i / e.Iwidth) best
        (buf.getD (n.2 * e.Iwidth + n.1) none))
      (buf.getD i none)

/-- Modelled from the spec: the first step size of the missing implementation, the first
power of two that is at least `n / 2`, found by doubling (the first argument bounds the
number of doublings). -/
def firstStep (n : Nat) : Nat → Nat → Nat
  | 0, s => s
  | fuel + 1, s => if n ≤ 2 * s then s else firstStep n fuel (2 * s)

/-- Modelled from the spec: the step sizes `s, s/2, ..., 1` of the missing
implementation, "a decreasing geometric sequence ... down to 1 (inclusive)" (the first
argument bounds the number of steps). -/
def stepSizes : Nat → Nat → List Nat
  | 0, _ => []
  | fuel + 1, s => if s ≤ 1 then [1] else s :: stepSizes fuel (s / 2)

/-- Modelled from the spec: the step sizes of the jump-flood passes of the missing
implementation, from the first power of two at least `max(Wi, Hi) / 2` down to 1. -/
def jumpSteps (e : SDFExecutor) : List Nat :=
  let s := firstStep (max e.Iwidth e.Iheight) (max e.Iwidth e.Iheight) 1
  stepSizes s s

/-- Modelled from the spec: the saturation of the missing finalize pass, to
`[-spread, +spread]`. -/
def saturate (spread : Nat) (v : ℚ) : ℚ := max (-(spread : ℚ)) (min (spread : ℚ) v)

/-- Modelled from the spec: the finalize pass of the missing implementation.  The nearest
seed coordinate becomes a Euclidean distance (`root` is the square root as the backend
computes it), negative inside (on a seed) and positive outside, saturated; a pixel that
never resolved a seed gets `+spread`. -/
def finalize (e : SDFExecutor) (root : Nat → ℚ) (imageData : List Nat) (threshold : Nat)
    (buf : List (Option (Nat × Nat))) : List ℚ :=
  (List.range (e.Iwidth * e.Iheight)).map fun i =>
    match buf.getD i none with
    | none => (e.spread : ℚ)
    | some c =>
      let d := root (sqDist (i % e.Iwidth, i / e.Iwidth) c)
      saturate e.spread (if isSeed imageData threshold i then -d else d)

/-- Modelled from the spec: the optional resample pass of the missing implementation,
with nearest sampling of the finalized field. -/
def resample (e : SDFExecutor) (field : List ℚ) : List ℚ :=
  (List.range (e.Owidth * e.Oheight)).map fun o =>
    field.getD ((o / e.Owidth * e.Iheight / e.Oheight) * e.Iwidth
      + o % e.Owidth * e.Iwidth / e.Owidth) (e.spread : ℚ)

/-- Modelled from the spec: the values that the missing implementation of
`generateSDFFromImage:threshold:outputBuffer:` writes to the output buffer: seed-init
pass, jump-flood passes, finalize pass, and the resample pass when the output
dimensions differ from the input dimensions. -/
def generateSDFFromImage (e : SDFExecutor) (root : Nat → ℚ) (imageData : List Nat)
    (threshold : Nat) : List ℚ :=
  let field := e.finalize root imageData threshold
    (e.jumpSteps.foldl (fun buf step => e.jumpFlood step buf) (e.seedInit imageData threshold))
  if e.Owidth = e.Iwidth ∧ e.Oheight = e.Iheight then field else e.resample field

end SDFExecutor

/-! ## Reading memory -/

theorem deref_append_left (a b : List Nat) (i : Nat) (h : i < a.length) :
    deref (a ++ b) i = deref a i := by
  simp [deref, List.getD_eq_getElem?_getD, List.getElem?_append_left h]

theorem deref_append_right (a b : List Nat) (i : Nat) :
    deref (a ++ b) (a.length + i) = deref b i := by
  simp [deref, List.getD_eq_getElem?_getD, List.getElem?_append_right]

theorem deref_of_mem (a : List Nat) (i : Nat) (h : i < a.length) : deref a i ∈ a := by
  simp only [deref, List.getD_eq_getElem?_getD, List.getElem?_eq_getElem h, Option.getD_some]
  exact List.getElem_mem h

/-- The newline loop stops at the first newline at or after `p`, provided that newline
lies at an offset not beyond `size`. -/
theorem scanToNewline_found (mem : List Nat) (size : Nat) :
    ∀ (n fuel p : Nat), n ≤ fuel → p + n ≤ size →
      (∀ i, i < n → deref mem (p + i) ≠ 10) → deref mem (p + n) = 10 →
      scanToNewline mem size fuel p = p + n := by
  intro n
  induction n with
  | zero =>
    intro fuel p _ _ _ h10
    cases fuel with
    | zero => rfl
    | succ f => simp [scanToNewline, show deref mem p = 10 from h10]
  | succ n ih =>
    intro fuel p hf hs hne h10
    cases fuel with
    | zero => omega
    | succ f =>
      have h0 : deref mem p ≠ 10 := by simpa using hne 0 (by omega)
      have hp : p < size := by omega
      simp only [scanToNewline, h0, hp, ne_eq, not_false_eq_true, and_self, if_true]
      rw [ih f (p + 1) (by omega) (by omega)]
      · omega
      · intro i hi
        have := hne (i + 1) (by omega)
        rwa [show p + 1 + i = p + (i + 1) by omega]
      · rwa [show p + 1 + n = p + (n + 1) by omega]

/-- The bound `size - ptr` on the iterations of the newline loop is never exhausted:
the offset returned satisfies the exit condition of the `while`. -/
theorem scanToNewline_exit (mem : List Nat) (size : Nat) :
    ∀ (fuel p : Nat), size - p ≤ fuel →
      ¬ (deref mem (scanToNewline mem size fuel p) ≠ 10 ∧
          scanToNewline mem size fuel p < size) := by
  intro fuel
  induction fuel with
  | zero =>
    intro p hp h
    simp only [scanToNewline] at h
    omega
  | succ f ih =>
    intro p hp
    unfold scanToNewline
    split
    · exact ih (p + 1) (by omega)
    · assumption

/-- More iterations than `size - ptr` do not change the result of the newline loop. -/
theorem scanToNewline_fuel (mem : List Nat) (size : Nat) :
    ∀ (fuel p : Nat), size - p ≤ fuel →
      scanToNewline mem size fuel p = scanToNewline mem size (size - p) p := by
  intro fuel
  induction fuel with
  | zero =>
    intro p hp
    rw [show size - p = 0 by omega]
  | succ f ih =>
    intro p hp
    by_cases hc : deref mem p ≠ 10 ∧ p < size
    · obtain ⟨k, hk⟩ : ∃ k, size - p = k + 1 := ⟨size - p - 1, by omega⟩
      rw [hk]
      simp only [scanToNewline, hc, ne_eq, not_false_eq_true, and_self, if_true]
      rw [ih (p + 1) (by omega), show size - (p + 1) = k by omega]
    · cases hsp : size - p with
      | zero => simp only [scanToNewline, hc, if_false]
      | succ k => simp only [scanToNewline, hc, if_false]

/-- The bound `n` on the halvings of `highBit` is enough: the result is the position of
the highest set bit. -/
theorem highBit_spec :
    ∀ (fuel n : Nat), n ≤ fuel → 0 < n →
      2 ^ highBit fuel n ≤ n ∧ n < 2 ^ (highBit fuel n + 1) := by
  intro fuel
  induction fuel with
  | zero => intro n hn hpos; omega
  | succ f ih =>
    intro n hn hpos
    unfold highBit
    split
    · have : n = 1 := by omega
      subst this
      simp
    · obtain ⟨h1, h2⟩ := ih (n / 2) (by omega) (by omega)
      rw [pow_succ] at h2 ⊢
      rw [pow_succ]
      constructor <;> omega

/-- The newline loop over a line `line` that starts right after `pre` and is ended by a
newline inside the buffer. -/
theorem scanToNewline_line (pre line rest : List Nat) (size : Nat)
    (hline : 10 ∉ line) (hsize : pre.length + line.length ≤ size) :
    scanToNewline (pre ++ (line ++ 10 :: rest)) size (size - pre.length) pre.length
      = pre.length + line.length := by
  apply scanToNewline_found
  · omega
  · exact hsize
  · intro i hi h
    rw [deref_append_right, deref_append_left _ _ _ hi] at h
    exact hline (h ▸ deref_of_mem line i hi)
  · rw [deref_append_right, show line.length = line.length + 0 by rfl, deref_append_right]
    rfl

/-! ## Decimal text -/

theorem isdigit_digit (d : Nat) (h : d < 10) : isdigit (48 + d) = true := by
  simp [isdigit]; omega

theorem decimalDigits_isdigit :
    ∀ (fuel n : Nat) (c : Nat), c ∈ decimalDigits fuel n → isdigit c = true := by
  intro fuel
  induction fuel with
  | zero =>
    intro n c hc
    simp only [decimalDigits, List.mem_singleton] at hc
    subst hc
    exact isdigit_digit _ (Nat.mod_lt _ (by decide))
  | succ f ih =>
    intro n c hc
    unfold decimalDigits at hc
    split at hc
    · simp only [List.mem_singleton] at hc
      subst hc
      exact isdigit_digit _ (by assumption)
    · rcases List.mem_append.mp hc with h | h
      · exact ih _ _ h
      · simp only [List.mem_singleton] at h
        subst h
        exact isdigit_digit _ (Nat.mod_lt _ (by decide))

theorem decimalDigits_ne_nil (fuel n : Nat) : decimalDigits fuel n ≠ [] := by
  cases fuel with
  | zero => simp [decimalDigits]
  | succ f =>
    unfold decimalDigits
    split <;> simp

theorem to_string_isdigit (n c : Nat) (h : c ∈ to_string n) : isdigit c = true :=
  decimalDigits_isdigit n n c h

/-- The text of a number starts with a digit. -/
theorem to_string_cons (n : Nat) :
    ∃ d ds, to_string n = d :: ds ∧ isdigit d = true := by
  cases h : to_string n with
  | nil => exact absurd h (decimalDigits_ne_nil n n)
  | cons d ds =>
    exact ⟨d, ds, rfl, to_string_isdigit n d (by rw [h]; exact List.mem_cons_self _ _)⟩

theorem isdigit_ne_newline (c : Nat) (h : isdigit c = true) : c ≠ 10 := by
  simp [isdigit] at h; omega

theorem to_string_no_newline (n : Nat) : 10 ∉ to_string n :=
  fun h => isdigit_ne_newline 10 (to_string_isdigit n 10 h) rfl

theorem scanDigits_digit (acc cnt d : Nat) (rest : List Nat) (h : d < 10) :
    scanDigits decval 10 acc cnt ((48 + d) :: rest)
      = scanDigits decval 10 (acc * 10 + d) (cnt + 1) rest := by
  simp [scanDigits, decval, isdigit_digit d h]

/-- Scanning the digits of `n` continues after them with the accumulated number. -/
theorem scanDigits_decimalDigits :
    ∀ (fuel n acc cnt : Nat) (rest : List Nat), n ≤ fuel →
      scanDigits decval 10 acc cnt (decimalDigits fuel n ++ rest)
        = scanDigits decval 10 (acc * 10 ^ (decimalDigits fuel n).length + n)
            (cnt + (decimalDigits fuel n).length) rest := by
  intro fuel
  induction fuel with
  | zero =>
    intro n acc cnt rest hn
    have hn0 : n = 0 := by omega
    subst hn0
    simp only [decimalDigits, List.singleton_append, List.length_singleton, pow_one]
    exact scanDigits_digit acc cnt 0 rest (by decide)
  | succ f ih =>
    intro n acc cnt rest hn
    unfold decimalDigits
    split
    · rename_i h10
      simp only [List.singleton_append, List.length_singleton, pow_one]
      exact scanDigits_digit acc cnt n rest h10
    · rename_i h10
      have hdiv : n / 10 ≤ f := by omega
      rw [List.append_assoc, ih (n / 10) acc cnt _ hdiv, List.singleton_append,
        scanDigits_digit _ _ _ _ (Nat.mod_lt _ (by decide))]
      simp only [List.length_append, List.length_singleton, pow_succ, ← Nat.mul_assoc]
      congr 1
      · generalize acc * 10 ^ (decimalDigits f (n / 10)).length = X
        omega

theorem scanDigits_stop (val : Nat → Option Nat) (base acc cnt : Nat) (rest : List Nat)
    (h : ∀ c t, rest = c :: t → val c = none) :
    scanDigits val base acc cnt rest = (acc, cnt, rest) := by
  cases rest with
  | nil => rfl
  | cons c t => simp [scanDigits, h c t rfl]

theorem skipSpace_nonspace (c : Nat) (t : List Nat) (h : isspace c = false) :
    skipSpace (c :: t) = c :: t := by
  simp [skipSpace, h]

theorem isdigit_not_space (c : Nat) (h : isdigit c = true) : isspace c = false := by
  simp [isdigit] at h
  simp [isspace]
  omega

theorem scanSign_digit (c : Nat) (t : List Nat) (h : isdigit c = true) :
    scanSign (c :: t) = (false, c :: t) := by
  simp [isdigit] at h
  unfold scanSign
  split
  · rename_i heq; simp at heq; omega
  · rename_i heq; simp at heq; omega
  · rfl

/-- `%u` reads back the text of a number below `2^32` that is followed by a character
which is not a digit. -/
theorem scanUnsigned_to_string (n c : Nat) (rest : List Nat) (hn : n < 2 ^ 32)
    (hc : isdigit c = false) :
    scanUnsigned (to_string n ++ c :: rest) = some (n, c :: rest) := by
  obtain ⟨d, ds, hds, hd⟩ := to_string_cons n
  have h1 : skipSpace (to_string n ++ c :: rest) = to_string n ++ c :: rest := by
    rw [hds]; exact skipSpace_nonspace d _ (isdigit_not_space d hd)
  have h2 : scanSign (to_string n ++ c :: rest) = (false, to_string n ++ c :: rest) := by
    rw [hds]; exact scanSign_digit d _ hd
  have h3 : scanDigits decval 10 0 0 (to_string n ++ c :: rest)
      = (n, (to_string n).length, c :: rest) := by
    unfold to_string
    rw [scanDigits_decimalDigits n n 0 0 _ (Nat.le_refl n)]
    rw [scanDigits_stop]
    · simp
    · intro c' t' h
      simp only [List.cons.injEq] at h
      rw [← h.1]
      simp [decval, hc]
  have hlen : (to_string n).length ≠ 0 := by rw [hds]; simp
  have h64 : ¬ (2 ^ 64 ≤ n) := by omega
  simp only [scanUnsigned, h1, h2, h3, hlen, h64, if_false, Bool.false_eq_true]
  rw [Nat.mod_eq_of_lt hn]

/-- The dimension line written by the encoder is read back by `sscanf("%u %u")`. -/
theorem sscanf_u_u_line (w h : Nat) (rest : List Nat) (hw : w < 2 ^ 32) (hh : h < 2 ^ 32) :
    sscanf_u_u (to_string w ++ [32] ++ to_string h ++ [10] ++ rest) = [w, h] := by
  have e : to_string w ++ [32] ++ to_string h ++ [10] ++ rest
      = to_string w ++ 32 :: (to_string h ++ 10 :: rest) := by simp
  obtain ⟨d, ds, hds, hd⟩ := to_string_cons h
  have hsp : skipSpace (32 :: (to_string h ++ 10 :: rest)) = to_string h ++ 10 :: rest := by
    rw [hds, List.cons_append]
    have h32 : isspace 32 = true := by decide
    rw [skipSpace, if_pos h32]
    exact skipSpace_nonspace d _ (isdigit_not_space d hd)
  rw [e]
  simp only [sscanf_u_u, scanUnsigned_to_string w 32 _ hw (by decide), hsp,
    scanUnsigned_to_string h 10 _ hh (by decide)]

/-! ## Scale text -/

theorem sixDigits_isdigit (n c : Nat) (h : c ∈ sixDigits n) : isdigit c = true := by
  simp only [sixDigits, List.mem_cons, List.mem_singleton, List.not_mem_nil, or_false] at h
  rcases h with h | h | h | h | h | h <;> subst h <;>
    exact isdigit_digit _ (Nat.mod_lt _ (by decide))

/-- The text printed for a scaler holds no newline. -/
theorem format_f_no_newline (x : Float32) : 10 ∉ format_f x := by
  intro h
  unfold format_f at h
  rcases List.mem_append.mp h with h | h
  · split at h <;> simp at h
  · split at h
    · split at h <;> simp at h
    · simp only [List.append_assoc, List.mem_append, List.mem_singleton] at h
      rcases h with h | h | h
      · exact to_string_no_newline _ h
      · omega
      · exact isdigit_ne_newline 10 (sixDigits_isdigit _ _ h) rfl

theorem tolower_digit (c : Nat) (h : isdigit c = true) : tolower c = c := by
  simp [isdigit] at h
  simp [tolower]
  omega

theorem scanHex_digits (d : Nat) (ds t : List Nat)
    (hds : ∀ c ∈ ds, isdigit c = true) : scanHex (d :: (ds ++ 46 :: t)) = none := by
  unfold scanHex
  split
  · rename_i x t' heq
    simp only [List.cons.injEq] at heq
    have hx : tolower x ≠ 120 := by
      cases ds with
      | nil =>
        simp only [List.nil_append, List.cons.injEq] at heq
        rw [← heq.2.1]; decide
      | cons e es =>
        simp only [List.cons_append, List.cons.injEq] at heq
        have he := hds e (List.mem_cons_self _ _)
        rw [← heq.2.1, tolower_digit e he]
        simp [isdigit] at he; omega
    simp [hx]
  · rfl

theorem scanDecimal_to_string (a : Nat) (t : List Nat) :
    ∃ m, scanDecimal (to_string a ++ 46 :: t) = some m := by
  have h1 : scanDigits decval 10 0 0 (to_string a ++ 46 :: t)
      = (a, (to_string a).length, 46 :: t) := by
    unfold to_string
    rw [scanDigits_decimalDigits a a 0 0 _ (Nat.le_refl a), scanDigits_stop]
    · simp
    · intro c' t' h
      simp only [List.cons.injEq] at h
      rw [← h.1]; decide
  obtain ⟨d, ds, hds, _⟩ := to_string_cons a
  have hlen : (to_string a).length ≠ 0 := by rw [hds]; simp
  rcases h2 : scanDigits decval 10 a 0 t with ⟨mant, n2, r2⟩
  have hne : ¬ ((to_string a).length + n2 = 0) := by omega
  refine ⟨scaledToBinary32 mant 10 (scanExponent 101 r2 - (n2 : Int)), ?_⟩
  simp only [scanDecimal, h1, h2, hne, if_false]

/-- A number printed in fixed notation is accepted as a magnitude. -/
theorem scanMagnitude_to_string (a : Nat) (t : List Nat) :
    ∃ m, scanMagnitude (to_string a ++ 46 :: t) = some m := by
  obtain ⟨m, hm⟩ := scanDecimal_to_string a t
  obtain ⟨d, ds, hds, hd⟩ := to_string_cons a
  have hall : ∀ c ∈ ds, isdigit c = true := fun c hc =>
    to_string_isdigit a c (by rw [hds]; exact List.mem_cons_of_mem _ hc)
  have hhex : scanHex (to_string a ++ 46 :: t) = none := by
    rw [hds]; exact scanHex_digits d ds t hall
  have hd1 : tolower d ≠ 105 := by
    rw [tolower_digit d hd]; simp [isdigit] at hd; omega
  have hd2 : tolower d ≠ 110 := by
    rw [tolower_digit d hd]; simp [isdigit] at hd; omega
  refine ⟨m, ?_⟩
  unfold scanMagnitude
  split
  · rename_i a' b' c' r heq
    rw [hds] at heq
    simp only [List.cons_append, List.cons.injEq] at heq
    have ha : tolower a' ≠ 105 := by rw [← heq.1]; exact hd1
    have hb : tolower a' ≠ 110 := by rw [← heq.1]; exact hd2
    simp only [ha, hb, false_and, if_false]
    rw [hhex, hm]; rfl
  · rw [hhex, hm]; rfl

/-- The scale line written by the encoder for a scaler `> 0` is accepted by
`sscanf("%f")`, and the value read is not `> 0`. -/
theorem sscanf_f_scale_line (x : Float32) (rest : List Nat) (hx : x.gt0 = true) :
    ∃ v, sscanf_f (45 :: (format_f x ++ 10 :: rest)) = some v ∧ v.gt0 = false := by
  have hsign : x.sign = false := by
    simp [Float32.gt0] at hx; exact hx.1.1
  have hmag : ∃ m, scanMagnitude (format_f x ++ 10 :: rest) = some m := by
    unfold format_f
    simp only [hsign, Bool.false_eq_true, if_false, List.nil_append]
    split
    · rename_i h255
      have hfrac : x.frac.val = 0 := by
        simp [Float32.gt0, Float32.isNaN, h255] at hx
        exact hx.1.2
      simp only [hfrac, if_true]
      exact ⟨Float32.inf, by simp [scanMagnitude, tolower]⟩
    · simp only [List.append_assoc, List.singleton_append]
      exact scanMagnitude_to_string _ _
  obtain ⟨m, hm⟩ := hmag
  refine ⟨{ m with sign := true }, ?_, by simp [Float32.gt0]⟩
  have h45 : isspace 45 = false := by decide
  simp [sscanf_f, skipSpace, h45, scanSign, hm]

/-! ## The row-flipping copy loops -/

theorem forUpTo_succ {σ ε : Type} (body : Nat → σ → Except ε σ) (n : Nat) (s : σ) :
    forUpTo body (n + 1) s = forUpTo body n s >>= body n := rfl

theorem memcpyCells_ok (v : List Cell) (k : Nat) (row : List Cell)
    (h : k + row.length ≤ v.length) :
    memcpyCells v k row = .ok (v.take k ++ row ++ v.drop (k + row.length)) := by
  simp [memcpyCells, h]

theorem mul_row_le (W H t : Nat) (ht : t < H) : t * W + W ≤ W * H := by
  have h1 : (t + 1) * W ≤ H * W := Nat.mul_le_mul_right W ht
  rw [Nat.add_mul, Nat.one_mul, Nat.mul_comm H W] at h1
  exact h1

/-- After `k` iteration of a row-flipping loop the rows `0 .. k-1` of the source lie at
the rows `height-1 .. height-k` of the destination. -/
theorem flip_invariant (W H : Nat) (row : Nat → List Cell)
    (body : Nat → List Cell → Except Failure (List Cell))
    (hrow : ∀ y, y < H → (row y).length = W)
    (hbody : ∀ y s, y < H → body y s = memcpyCells s ((H - 1 - y) * W) (row y)) :
    ∀ k, k ≤ H → ∃ s, forUpTo body k (List.replicate (W * H) Cell.zero) = .ok s ∧
      s.length = W * H ∧
      ∀ y x, y < k → x < W → s[(H - 1 - y) * W + x]? = (row y)[x]? := by
  intro k
  induction k with
  | zero =>
    intro _
    exact ⟨_, rfl, by simp, fun y x hy _ => absurd hy (Nat.not_lt_zero y)⟩
  | succ k ih =>
    intro hk
    obtain ⟨s, hs, hlen, hget⟩ := ih (by omega)
    have hkH : k < H := by omega
    have hrk := hrow k hkH
    have hd : (H - 1 - k) * W + W ≤ W * H := mul_row_le W H (H - 1 - k) (by omega)
    have hok := memcpyCells_ok s ((H - 1 - k) * W) (row k) (by rw [hrk, hlen]; exact hd)
    refine ⟨List.take ((H - 1 - k) * W) s ++ row k
      ++ List.drop ((H - 1 - k) * W + (row k).length) s, ?_, ?_, ?_⟩
    · rw [forUpTo_succ, hs]
      show body k s = _
      rw [hbody k s hkH, hok]
    · simp only [List.length_append, List.length_take, List.length_drop, hrk, hlen]
      omega
    · intro y x hy hx
      have htake : (List.take ((H - 1 - k) * W) s).length = (H - 1 - k) * W := by
        rw [List.length_take, hlen]; omega
      rcases Nat.lt_succ_iff_lt_or_eq.mp hy with hlt | heq
      · have hab : (H - 1 - k) + 1 ≤ H - 1 - y := by omega
        have hmul : ((H - 1 - k) + 1) * W ≤ (H - 1 - y) * W := Nat.mul_le_mul_right W hab
        rw [Nat.add_mul, Nat.one_mul] at hmul
        rw [List.append_assoc, List.getElem?_append_right (by rw [htake]; omega),
          List.getElem?_append_right (by rw [htake, hrk]; omega), List.getElem?_drop,
          htake, hrk, ← hget y x hlt hx]
        congr 1
        omega
      · subst heq
        rw [List.append_assoc, List.getElem?_append_right (by rw [htake]; omega), htake,
          List.getElem?_append_left (by rw [hrk]; omega)]
        congr 1
        omega

/-- A row-flipping loop run to its end produces `flipRows` of the source. -/
theorem flip_loop (W H : Nat) (src : List Cell) (row : Nat → List Cell)
    (body : Nat → List Cell → Except Failure (List Cell))
    (hsrc : src.length = W * H)
    (hrow : ∀ y, y < H → (row y).length = W)
    (hget : ∀ y x, y < H → x < W → (row y)[x]? = src[y * W + x]?)
    (hbody : ∀ y s, y < H → body y s = memcpyCells s ((H - 1 - y) * W) (row y)) :
    forUpTo body H (List.replicate (W * H) Cell.zero) = .ok (flipRows W H src) := by
  obtain ⟨s, hs, hlen, hs_get⟩ := flip_invariant W H row body hrow hbody H (Nat.le_refl H)
  rw [hs]
  congr 1
  apply List.ext_getElem?
  intro i
  by_cases hi : i < W * H
  · have hW : 0 < W := by
      rcases Nat.eq_zero_or_pos W with h | h
      · subst h; simp at hi
      · exact h
    have hq : i / W < H := Nat.div_lt_of_lt_mul hi
    have hdm : i / W * W + i % W = i := by
      rw [Nat.mul_comm]; exact Nat.div_add_mod i W
    have hx : i % W < W := Nat.mod_lt _ hW
    obtain ⟨q, hqe⟩ : ∃ q, i / W = q := ⟨_, rfl⟩
    obtain ⟨r, hre⟩ : ∃ r, i % W = r := ⟨_, rfl⟩
    rw [hqe] at hq hdm
    rw [hre] at hx hdm
    have hy : H - 1 - q < H := by omega
    have h1 := hs_get (H - 1 - q) r hy hx
    have hidx : H - 1 - (H - 1 - q) = q := by omega
    rw [hidx, hdm] at h1
    have hin : (H - 1 - q) * W + r < src.length := by
      have := mul_row_le W H (H - 1 - q) hy
      omega
    rw [h1, hget _ _ hy hx]
    simp only [flipRows, List.getElem?_map, List.getElem?_range hi, Option.map_some',
      List.getD_eq_getElem?_getD, hqe, hre, List.getElem?_eq_getElem hin, Option.getD_some]
  · rw [List.getElem?_eq_none (by omega), List.getElem?_eq_none (by simp [flipRows]; omega)]

theorem flipRows_length (W H : Nat) (src : List Cell) :
    (flipRows W H src).length = W * H := by
  simp [flipRows]

/-- Entry `(H-1-y)*W + x` of the flipped image is entry `y*W + x` of the source. -/
theorem flipRows_getElem? (W H : Nat) (src : List Cell) (hsrc : src.length = W * H)
    (y x : Nat) (hy : y < H) (hx : x < W) :
    (flipRows W H src)[(H - 1 - y) * W + x]? = src[y * W + x]? := by
  have h1 := mul_row_le W H (H - 1 - y) (by omega)
  have h2 := mul_row_le W H y hy
  have hi : (H - 1 - y) * W + x < W * H := by omega
  have hdiv : ((H - 1 - y) * W + x) / W = H - 1 - y := by
    rw [Nat.add_comm, Nat.add_mul_div_right _ _ (by omega), Nat.div_eq_of_lt hx]; omega
  have hmod : ((H - 1 - y) * W + x) % W = x := by
    rw [Nat.add_comm, Nat.add_mul_mod_self_right, Nat.mod_eq_of_lt hx]
  have hin : y * W + x < src.length := by omega
  simp only [flipRows, List.getElem?_map, List.getElem?_range hi, Option.map_some', hdiv, hmod,
    List.getD_eq_getElem?_getD, List.getElem?_eq_getElem hin, Option.getD_some]
  have hidx : H - 1 - (H - 1 - y) = y := by omega
  simp only [hidx, List.getElem?_eq_getElem hin, Option.getD_some]

theorem flipRows_getElem?_lt (W H : Nat) (c : List Cell) (i : Nat) (hi : i < W * H) :
    (flipRows W H c)[i]? = some (c.getD ((H - 1 - i / W) * W + i % W) Cell.zero) := by
  simp only [flipRows, List.getElem?_map, List.getElem?_range hi, Option.map_some']

theorem flipRows_flipRows (W H : Nat) (src : List Cell) (hsrc : src.length = W * H) :
    flipRows W H (flipRows W H src) = src := by
  apply List.ext_getElem?
  intro i
  by_cases hi : i < W * H
  · have hW : 0 < W := by
      rcases Nat.eq_zero_or_pos W with h | h
      · subst h; simp at hi
      · exact h
    have hq : i / W < H := Nat.div_lt_of_lt_mul hi
    have hdm : i / W * W + i % W = i := by
      rw [Nat.mul_comm]; exact Nat.div_add_mod i W
    have hx : i % W < W := Nat.mod_lt _ hW
    have h1 := flipRows_getElem? W H src hsrc (i / W) (i % W) hq hx
    rw [hdm] at h1
    have hin : i < src.length := by omega
    rw [flipRows_getElem?_lt W H _ i hi, List.getD_eq_getElem?_getD, h1,
      List.getElem?_eq_getElem hin]
    rfl
  · rw [List.getElem?_eq_none (by rw [flipRows_length]; omega),
      List.getElem?_eq_none (by omega)]

/-! ## Cells in memory -/

theorem payloadBytes_cons (c : Cell) (cs : List Cell) :
    payloadBytes (c :: cs) = c.b0 :: c.b1 :: c.b2 :: c.b3 :: payloadBytes cs := by
  simp [payloadBytes, Cell.bytes]

theorem payloadBytes_length (cells : List Cell) : (payloadBytes cells).length = 4 * cells.length := by
  induction cells with
  | nil => rfl
  | cons c cs ih => rw [payloadBytes_cons]; simp [ih]; omega

theorem readCell_payloadBytes :
    ∀ (cells : List Cell) (tail : List Nat) (j : Nat), j < cells.length →
      readCell (payloadBytes cells ++ tail) (4 * j) = cells.getD j Cell.zero := by
  intro cells
  induction cells with
  | nil => intro tail j hj; simp at hj
  | cons c cs ih =>
    intro tail j hj
    cases j with
    | zero => simp [readCell, deref, payloadBytes_cons]
    | succ j =>
      have hj' : j < cs.length := by simpa using hj
      have := ih tail j hj'
      simp only [readCell, deref, payloadBytes_cons, List.cons_append] at this ⊢
      simp only [show 4 * (j + 1) = 4 * j + 1 + 1 + 1 + 1 by omega,
        show 4 * j + 1 + 1 + 1 + 1 + 1 = 4 * j + 1 + 1 + 1 + 1 + 1 by rfl,
        show 4 * j + 1 + 1 + 1 + 1 + 2 = 4 * j + 2 + 1 + 1 + 1 + 1 by omega,
        show 4 * j + 1 + 1 + 1 + 1 + 3 = 4 * j + 3 + 1 + 1 + 1 + 1 by omega,
        List.getD_cons_succ]
      simpa using this

theorem readCell_append_right (pre mem : List Nat) (k : Nat) :
    readCell (pre ++ mem) (pre.length + k) = readCell mem k := by
  simp only [readCell, Nat.add_assoc, deref_append_right]

/-- The `x`-th cell of a row read from a payload that lies right after `pre`. -/
theorem readRow_getElem? (pre : List Nat) (cells : List Cell) (tail : List Nat)
    (k n x : Nat) (hx : x < n) (hk : k + x < cells.length) :
    (readRow (pre ++ (payloadBytes cells ++ tail)) pre.length k n)[x]? = cells[k + x]? := by
  simp only [readRow, List.getElem?_map, List.getElem?_range hx, Option.map_some',
    readCell_append_right, readCell_payloadBytes cells tail (k + x) hk,
    List.getD_eq_getElem?_getD, List.getElem?_eq_getElem hk, Option.getD_some]

theorem readRow_length (mem : List Nat) (start k n : Nat) :
    (readRow mem start k n).length = n := by
  simp [readRow]

/-- The `FlipY` loop of `_load` over a complete payload, when `width * height` fits in
32 bits. -/
theorem load_loop (pre : List Nat) (cells : List Cell) (tail : List Nat) (W H : Nat)
    (hlen : cells.length = W * H) (hlt : W * H < 2 ^ 32) :
    forUpTo (Reader.loadRow (pre ++ (payloadBytes cells ++ tail)) pre.length W H) H
      (List.replicate (W * H) Cell.zero) = .ok (flipRows W H cells) := by
  apply flip_loop W H cells
    (fun y => readRow (pre ++ (payloadBytes cells ++ tail)) pre.length (y * W) W)
  · exact hlen
  · intro y _; exact readRow_length _ _ _ _
  · intro y x hy hx
    have := mul_row_le W H y hy
    exact readRow_getElem? pre cells tail (y * W) W x hx (by omega)
  · intro y s hy
    have h1 := mul_row_le W H y hy
    have h2 := mul_row_le W H (H - 1 - y) (by omega)
    simp only [Reader.loadRow]
    rw [Nat.mod_eq_of_lt (by omega), Nat.mod_eq_of_lt (by omega)]

/-- The copy loop of `_createPFMData` for an image whose buffer has `width * height`
cells, when that product fits in 32 bits. -/
theorem store_loop (data : PFMData) (hlen : data.pixels.length = data.width * data.height)
    (hlt : data.width * data.height < 2 ^ 32) :
    forUpTo (Reader.storeRow data) data.height
      (List.replicate (data.width * data.height) Cell.zero)
      = .ok (flipRows data.width data.height data.pixels) := by
  apply flip_loop data.width data.height data.pixels
    (fun y => (data.pixels.drop (y * data.width)).take data.width)
  · exact hlen
  · intro y hy
    have := mul_row_le data.width data.height y hy
    rw [List.length_take, List.length_drop]; omega
  · intro y x _ hx
    rw [List.getElem?_take_of_lt hx, List.getElem?_drop]
  · intro y s hy
    have h1 := mul_row_le data.width data.height y hy
    have h2 := mul_row_le data.width data.height (data.height - 1 - y) (by omega)
    simp only [Reader.storeRow]
    rw [Nat.mod_eq_of_lt (by omega), Nat.mod_eq_of_lt (by omega)]
    have hin : y * data.width + data.width ≤ data.pixels.length := by omega
    simp only [readCells, hin, if_true]
    rfl

/-! ## The header stage of `_load` -/

/-- What the newline loop, the test after it and the increment do on a line that starts
right after `pre`. -/
theorem line_step (pre line rest : List Nat) (size : Nat) (hline : 10 ∉ line)
    (hsize : pre.length + line.length ≤ size) :
    scanToNewline (pre ++ (line ++ 10 :: rest)) size (size - pre.length) pre.length
        = pre.length + line.length ∧
      deref (pre ++ (line ++ 10 :: rest)) (pre.length + line.length) = 10 ∧
      (pre ++ (line ++ 10 :: rest)).drop (pre.length + line.length + 1) = rest := by
  refine ⟨scanToNewline_line pre line rest size hline hsize, ?_, ?_⟩
  · rw [deref_append_right, show line.length = line.length + 0 by rfl, deref_append_right]
    rfl
  · rw [Nat.add_assoc, ← List.drop_drop, List.drop_left, ← List.drop_drop, List.drop_left]
    rfl

theorem headerLines_length (first : List Nat) (W H : Nat) (st : List Nat) :
    (headerLines first W H st).length
      = first.length + 1 + ((to_string W).length + 1 + (to_string H).length) + 1
        + st.length + 1 := by
  simp [headerLines]; omega

/-- The header stage of `_load` on an input that starts with three header lines, the
first one beginning with `Pf`, all lying inside the buffer: what is left is the
conversion of the scale field, the size test and the pixel loops. -/
theorem load_headerLines (host : ByteOrder) (junk : List Nat) (W H : Nat)
    (st rest : List Nat) (size : Nat)
    (hj : 10 ∉ junk) (hW : W < 2 ^ 32) (hH : H < 2 ^ 32) (hst : 10 ∉ st)
    (hsize : (headerLines ([80, 102] ++ junk) W H st).length ≤ size) :
    Reader._load host (some (headerLines ([80, 102] ++ junk) W H st ++ rest)) size =
      match sscanf_f (st ++ 10 :: rest) with
      | none => .ok { width := W, height := H }
      | some scale =>
        if (headerLines ([80, 102] ++ junk) W H st).length + (W * H) % 2 ^ 32 * 4 > size then
          .ok { width := W, height := H, scaler := scale.abs }
        else
          match forUpTo (Reader.loadRow (headerLines ([80, 102] ++ junk) W H st ++ rest)
              (headerLines ([80, 102] ++ junk) W H st).length W H) H
              (List.replicate ((W * H) % 2 ^ 32) Cell.zero) with
          | .error e => .error e
          | .ok pixels =>
            if scale.gt0 != !isSystemLittleEndian host then
              .ok { width := W, height := H, scaler := scale.abs,
                    pixels := pixels.map __builtin_bswap32 }
            else .ok { width := W, height := H, scaler := scale.abs, pixels := pixels } := by
  have hL := headerLines_length ([80, 102] ++ junk) W H st
  obtain ⟨l1, hl1⟩ : ∃ l1, l1 = [80, 102] ++ junk := ⟨_, rfl⟩
  have hl1len : l1.length = junk.length + 2 := by rw [hl1]; simp
  have hl1nl : 10 ∉ l1 := by
    rw [hl1]
    simp only [List.mem_append, not_or]
    exact ⟨by decide, hj⟩
  obtain ⟨l2, hl2⟩ : ∃ l2, l2 = to_string W ++ [32] ++ to_string H := ⟨_, rfl⟩
  have hl2len : l2.length = (to_string W).length + 1 + (to_string H).length := by
    rw [hl2]; simp; omega
  have hl2nl : 10 ∉ l2 := by
    rw [hl2]
    simp only [List.mem_append, List.mem_singleton, not_or]
    exact ⟨⟨to_string_no_newline W, by decide⟩, to_string_no_newline H⟩
  rw [← hl1] at hL hsize ⊢
  obtain ⟨mem, hmem⟩ : ∃ mem, mem = headerLines l1 W H st ++ rest := ⟨_, rfl⟩
  have hm1 : mem = [] ++ (l1 ++ 10 :: (l2 ++ 10 :: (st ++ 10 :: rest))) := by
    rw [hmem, hl2]; simp [headerLines]
  have hm2 : mem = (l1 ++ [10]) ++ (l2 ++ 10 :: (st ++ 10 :: rest)) := by
    rw [hm1]; simp
  have hm3 : mem = (l1 ++ [10] ++ l2 ++ [10]) ++ (st ++ 10 :: rest) := by
    rw [hm2]; simp
  have s1 := line_step [] l1 (l2 ++ 10 :: (st ++ 10 :: rest)) size hl1nl (by simp; omega)
  have s2 := line_step (l1 ++ [10]) l2 (st ++ 10 :: rest) size hl2nl (by simp; omega)
  have s3 := line_step (l1 ++ [10] ++ l2 ++ [10]) st rest size hst (by simp; omega)
  rw [← hm1] at s1
  rw [← hm2] at s2
  rw [← hm3] at s3
  simp only [List.length_nil, Nat.sub_zero, Nat.zero_add, List.length_cons, List.length_append,
    List.length_singleton] at s1 s2 s3
  obtain ⟨a1, b1, c1⟩ := s1
  obtain ⟨a2, b2, c2⟩ := s2
  obtain ⟨a3, b3, c3⟩ := s3
  have e0 : strncmp mem [80, 102] 2 = 0 := by
    rw [hm1, hl1]; simp [strncmp]
  have hscan : sscanf_u_u (List.drop (l1.length + 1) mem) = [W, H] := by
    rw [c1, hl2]
    have := sscanf_u_u_line W H (st ++ 10 :: rest) hW hH
    simpa using this
  rw [← hmem]
  simp only [Reader._load, e0, a1, b1, hscan, a2, b2, c2, a3, b3, c3, ne_eq, not_true_eq_false,
    if_false]
  have hL2 : (headerLines l1 W H st).length = l1.length + 1 + l2.length + 1 + st.length + 1 := by
    omega
  rw [hL2]

/-- The header stage of `_load` on an input that starts with `headerText W H st`. -/
theorem load_header (host : ByteOrder) (W H : Nat) (st rest : List Nat) (size : Nat)
    (hW : W < 2 ^ 32) (hH : H < 2 ^ 32) (hst : 10 ∉ st)
    (hsize : (headerText W H st).length ≤ size) :
    Reader._load host (some (headerText W H st ++ rest)) size =
      match sscanf_f (st ++ 10 :: rest) with
      | none => .ok { width := W, height := H }
      | some scale =>
        if (headerText W H st).length + (W * H) % 2 ^ 32 * 4 > size then
          .ok { width := W, height := H, scaler := scale.abs }
        else
          match forUpTo (Reader.loadRow (headerText W H st ++ rest)
              (headerText W H st).length W H) H
              (List.replicate ((W * H) % 2 ^ 32) Cell.zero) with
          | .error e => .error e
          | .ok pixels =>
            if scale.gt0 != !isSystemLittleEndian host then
              .ok { width := W, height := H, scaler := scale.abs,
                    pixels := pixels.map __builtin_bswap32 }
            else .ok { width := W, height := H, scaler := scale.abs, pixels := pixels } :=
  load_headerLines host [] W H st rest size (by simp) hW hH hst hsize

/-- `_load` on an input with three header lines (the first beginning with `Pf`), a
payload of `W * H` cells that lies inside the buffer, and a scale field that `sscanf`
converts to `scale`. -/
theorem load_complete_lines (host : ByteOrder) (junk : List Nat) (W H : Nat) (st : List Nat)
    (cells : List Cell) (tail : List Nat) (size : Nat) (scale : Float32)
    (hj : 10 ∉ junk) (hW : W < 2 ^ 32) (hH : H < 2 ^ 32) (hlt : W * H < 2 ^ 32)
    (hst : 10 ∉ st) (hlen : cells.length = W * H)
    (hsize : (headerLines ([80, 102] ++ junk) W H st).length + 4 * (W * H) ≤ size)
    (hscale : sscanf_f (st ++ 10 :: (payloadBytes cells ++ tail)) = some scale) :
    Reader._load host
        (some (headerLines ([80, 102] ++ junk) W H st ++ (payloadBytes cells ++ tail))) size
      = .ok { width := W, height := H, scaler := scale.abs,
              pixels := if scale.gt0 != !isSystemLittleEndian host
                then (flipRows W H cells).map __builtin_bswap32 else flipRows W H cells } := by
  rw [load_headerLines host junk W H st _ size hj hW hH hst (by omega), hscale]
  simp only [Nat.mod_eq_of_lt hlt]
  rw [if_neg (by omega), load_loop _ cells tail W H hlen hlt]
  by_cases hc : (scale.gt0 != !isSystemLittleEndian host) = true <;> simp [hc]

/-- `_load` on an input with a header `headerText W H st`, a payload of `W * H` cells
that lies inside the buffer, and a scale field that `sscanf` converts to `scale`. -/
theorem load_complete (host : ByteOrder) (W H : Nat) (st : List Nat) (cells : List Cell)
    (tail : List Nat) (size : Nat) (scale : Float32)
    (hW : W < 2 ^ 32) (hH : H < 2 ^ 32) (hlt : W * H < 2 ^ 32) (hst : 10 ∉ st)
    (hlen : cells.length = W * H)
    (hsize : (headerText W H st).length + 4 * (W * H) ≤ size)
    (hscale : sscanf_f (st ++ 10 :: (payloadBytes cells ++ tail)) = some scale) :
    Reader._load host (some (headerText W H st ++ (payloadBytes cells ++ tail))) size
      = .ok { width := W, height := H, scaler := scale.abs,
              pixels := if scale.gt0 != !isSystemLittleEndian host
                then (flipRows W H cells).map __builtin_bswap32 else flipRows W H cells } :=
  load_complete_lines host [] W H st cells tail size scale (by simp) hW hH hlt hst hlen hsize
    hscale

theorem header_eq (data : PFMData) :
    Reader.header data = headerText data.width data.height (45 :: format_f data.scaler) := by
  simp [Reader.header, headerText, headerLines]

/-- `_createPFMData` on an image that passes both guards and whose buffer has
`width * height` cells, that product fitting in 32 bits. -/
theorem createPFMData_valid (I : PFMData) (hne : I.pixels ≠ []) (hs : I.scaler.le0 = false)
    (hlen : I.pixels.length = I.width * I.height) (hlt : I.width * I.height < 2 ^ 32) :
    Reader._createPFMData I
      = .ok (headerText I.width I.height (45 :: format_f I.scaler)
          ++ payloadBytes (flipRows I.width I.height I.pixels)) := by
  have hv : I.isValid = true := by
    cases hp : I.pixels with
    | nil => exact absurd hp hne
    | cons c cs => simp [PFMData.isValid, hp]
  simp only [Reader._createPFMData, hv, hs, PFMData.pixelCount, Nat.mod_eq_of_lt hlt,
    store_loop I hlen hlt, header_eq, payloadBytes]
  rfl

theorem gt0_not_le0 (x : Float32) (h : x.gt0 = true) : x.le0 = false := by
  simp [Float32.gt0] at h
  simp [Float32.le0, h]

theorem lt0_not_gt0 (x : Float32) (h : x.lt0 = true) : x.gt0 = false := by
  simp [Float32.lt0] at h
  simp [Float32.gt0, h]

/-! ## Claims -/

/-- C1. Round trip of pixels and dimensions on a little-endian host: for every image with
scaler `> 0`, positive width and height, and a buffer of `width * height` cells (the
product below `2^32`), `_createPFMData` returns bytes on which `_load` returns an image
with the same width, the same height and the same pixel sequence, whatever follows the
buffer in memory. -/
theorem roundtrip_little_endian (I : PFMData) (tail : List Nat)
    (hs : I.scaler.gt0 = true) (hw : 0 < I.width) (hh : 0 < I.height)
    (hlen : I.pixels.length = I.width * I.height) (hlt : I.width * I.height < 2 ^ 32) :
    ∃ bytes J, Reader._createPFMData I = .ok bytes ∧
      Reader._load .little (some (bytes ++ tail)) bytes.length = .ok J ∧
      J.width = I.width ∧ J.height = I.height ∧ J.pixels = I.pixels := by
  have hpos : 0 < I.width * I.height := Nat.mul_pos hw hh
  have hne : I.pixels ≠ [] := by
    intro h; rw [h] at hlen; simp at hlen; omega
  have hW : I.width < 2 ^ 32 := by
    have := Nat.le_mul_of_pos_right I.width hh; omega
  have hH : I.height < 2 ^ 32 := by
    have := Nat.le_mul_of_pos_left I.height hw; omega
  have hst : 10 ∉ 45 :: format_f I.scaler := by
    simp only [List.mem_cons, not_or]
    exact ⟨by decide, format_f_no_newline _⟩
  have hflen : (flipRows I.width I.height I.pixels).length = I.width * I.height :=
    flipRows_length _ _ _
  obtain ⟨v, hv, hvgt⟩ := sscanf_f_scale_line I.scaler
    (payloadBytes (flipRows I.width I.height I.pixels) ++ tail) hs
  have hload := load_complete .little I.width I.height (45 :: format_f I.scaler) _ tail
    (headerText I.width I.height (45 :: format_f I.scaler)
      ++ payloadBytes (flipRows I.width I.height I.pixels)).length v hW hH hlt
      hst hflen (by rw [List.length_append, payloadBytes_length, hflen]) hv
  rw [hvgt, if_neg (by decide), flipRows_flipRows _ _ _ hlen, ← List.append_assoc] at hload
  exact ⟨_, _, createPFMData_valid I hne (gt0_not_le0 _ hs) hlen hlt, hload, rfl, rfl, rfl⟩

set_option maxRecDepth 100000 in
/-- C1, witness: the 2 x 2 image with top row 1.0 and bottom row 0.0 comes back with
that arrangement. -/
theorem roundtrip_little_endian_witness :
    ∃ bytes J, Reader._createPFMData topOneBottomZero = .ok bytes ∧
      Reader._load .little (some (bytes ++ [])) bytes.length = .ok J ∧
      J.width = 2 ∧ J.height = 2 ∧
      J.pixels = [Cell.one, Cell.one, Cell.zero, Cell.zero] :=
  roundtrip_little_endian topOneBottomZero [] (by decide) (by decide) (by decide)
    (by decide) (by decide)

/-- C2. Row order inversion on decode: on an input with header width `W`, height `H`
(`W * H < 2^32`), a scale field that marks the byte order of the host, and a complete
payload `cells`, `_load` returns `W * H` pixels, and for every row `y < H` and column
`x < W` the pixel at index `(H-1-y)*W + x` is the payload word at index `y*W + x`,
unchanged. -/
theorem load_row_inversion (host : ByteOrder) (W H : Nat) (st : List Nat)
    (cells : List Cell) (tail : List Nat) (scale : Float32)
    (hW : W < 2 ^ 32) (hH : H < 2 ^ 32) (hlt : W * H < 2 ^ 32) (hst : 10 ∉ st)
    (hlen : cells.length = W * H)
    (hscale : sscanf_f (st ++ 10 :: (payloadBytes cells ++ tail)) = some scale)
    (horder : scale.gt0 = !isSystemLittleEndian host) :
    ∃ J, Reader._load host (some (headerText W H st ++ payloadBytes cells ++ tail))
          (headerText W H st ++ payloadBytes cells).length = .ok J ∧
      J.width = W ∧ J.height = H ∧ J.pixels.length = W * H ∧
      ∀ y x, y < H → x < W →
        J.pixels[(H - 1 - y) * W + x]? = some (cells.getD (y * W + x) Cell.zero) := by
  have hload := load_complete host W H st cells tail
    (headerText W H st ++ payloadBytes cells).length scale hW hH hlt hst hlen
    (by rw [List.length_append, payloadBytes_length, hlen]) hscale
  have hno : ¬ ((scale.gt0 != !isSystemLittleEndian host) = true) := by
    rw [horder]; simp
  rw [if_neg hno, ← List.append_assoc] at hload
  refine ⟨_, hload, rfl, rfl, flipRows_length _ _ _, ?_⟩
  intro y x hy hx
  have hin : y * W + x < cells.length := by
    have := mul_row_le W H y hy; omega
  show (flipRows W H cells)[(H - 1 - y) * W + x]? = _
  rw [flipRows_getElem? W H cells hlen y x hy hx, List.getD_eq_getElem?_getD,
    List.getElem?_eq_getElem hin]
  rfl

set_option maxRecDepth 100000 in
/-- C2, witness: a 1 x 2 little-endian file read on a little-endian host; the first
payload word becomes the last pixel. -/
theorem load_row_inversion_witness :
    ∃ J, Reader._load .little
          (some (headerText 1 2 [45, 49] ++ payloadBytes [⟨1, 2, 3, 4⟩, ⟨5, 6, 7, 8⟩] ++ []))
          (headerText 1 2 [45, 49] ++ payloadBytes [⟨1, 2, 3, 4⟩, ⟨5, 6, 7, 8⟩]).length = .ok J ∧
      J.width = 1 ∧ J.height = 2 ∧ J.pixels.length = 1 * 2 ∧
      ∀ y x, y < 2 → x < 1 →
        J.pixels[(2 - 1 - y) * 1 + x]?
          = some ([(⟨1, 2, 3, 4⟩ : Cell), ⟨5, 6, 7, 8⟩].getD (y * 1 + x) Cell.zero) :=
  load_row_inversion .little 1 2 [45, 49] [⟨1, 2, 3, 4⟩, ⟨5, 6, 7, 8⟩] [] ⟨true, 127, 0⟩
    (by decide) (by decide) (by decide) (by decide) (by decide) (by decide) (by decide)

/-- C4. Truncation rejection: on an input with header `headerText W H st`
(`W * H < 2^32`) whose payload has fewer than `W * H * 4` bytes, `_load` returns a
`PFMData` with an empty pixel buffer, whatever the scale field and the bytes after the
buffer are. -/
theorem truncated_payload_rejected (host : ByteOrder) (W H : Nat) (st payload tail : List Nat)
    (hlt : W * H < 2 ^ 32) (hst : 10 ∉ st) (hshort : payload.length < W * H * 4) :
    ∃ J, Reader._load host (some (headerText W H st ++ payload ++ tail))
          (headerText W H st ++ payload).length = .ok J ∧
      J.pixels = [] ∧ J.isValid = false := by
  have hpos : 0 < W * H := by omega
  have hw : 0 < W := Nat.pos_of_mul_pos_right hpos
  have hh : 0 < H := Nat.pos_of_mul_pos_left hpos
  have hW : W < 2 ^ 32 := by
    have := Nat.le_mul_of_pos_right W hh; omega
  have hH : H < 2 ^ 32 := by
    have := Nat.le_mul_of_pos_left H hw; omega
  rw [List.append_assoc, load_header host W H st _ _ hW hH hst (by simp)]
  cases sscanf_f (st ++ 10 :: (payload ++ tail)) with
  | none => exact ⟨_, rfl, rfl, rfl⟩
  | some scale =>
    have hbig : (headerText W H st).length + W * H % 2 ^ 32 * 4
        > (headerText W H st ++ payload).length := by
      rw [Nat.mod_eq_of_lt hlt, List.length_append]; omega
    simp only [hbig, if_true]
    exact ⟨_, rfl, rfl, rfl⟩

set_option maxRecDepth 100000 in
/-- C4, witness: a 1 x 1 file whose payload is one byte short. -/
theorem truncated_payload_rejected_witness :
    ∃ J, Reader._load .little (some (headerText 1 1 [45, 49] ++ [1, 2, 3] ++ []))
          (headerText 1 1 [45, 49] ++ [1, 2, 3]).length = .ok J ∧
      J.pixels = [] ∧ J.isValid = false :=
  truncated_payload_rejected .little 1 1 [45, 49] [1, 2, 3] [] (by decide) (by decide)
    (by decide)

/-! ## Products that do not fit in 32 bits -/

theorem memcpyCells_inv (v : List Cell) (k : Nat) (row s : List Cell)
    (h : memcpyCells v k row = .ok s) : k + row.length ≤ v.length ∧ s.length = v.length := by
  unfold memcpyCells at h
  split at h
  · rename_i hle
    simp only [Except.ok.injEq] at h
    subst h
    refine ⟨hle, ?_⟩
    simp only [List.length_append, List.length_take, List.length_drop]
    omega
  · simp at h

theorem bind_ok_inv {σ ε : Type} (a : Except ε σ) (f : σ → Except ε σ) (s : σ)
    (h : a >>= f = .ok s) : ∃ s', a = .ok s' ∧ f s' = .ok s := by
  cases a with
  | error e => simp [bind, Except.bind] at h
  | ok s' => exact ⟨s', rfl, h⟩

/-- When the `FlipY` loop of `_load` returns, every row it wrote lay inside the vector. -/
theorem load_loop_inv (mem : List Nat) (ds W H P : Nat) :
    ∀ (k : Nat) (s : List Cell),
      forUpTo (Reader.loadRow mem ds W H) k (List.replicate P Cell.zero) = .ok s →
      s.length = P ∧ ∀ y, y < k → ((H - 1 - y) * W) % 2 ^ 32 + W ≤ P := by
  intro k
  induction k with
  | zero =>
    intro s h
    simp only [forUpTo, Except.ok.injEq] at h
    subst h
    exact ⟨by simp, fun y hy => absurd hy (Nat.not_lt_zero y)⟩
  | succ k ih =>
    intro s h
    rw [forUpTo_succ] at h
    obtain ⟨s', hs', hbody⟩ := bind_ok_inv _ _ _ h
    obtain ⟨hlen, hrows⟩ := ih s' hs'
    obtain ⟨hfit, hlen2⟩ := memcpyCells_inv _ _ _ _ hbody
    rw [readRow_length, hlen] at hfit
    refine ⟨by rw [hlen2, hlen], ?_⟩
    intro y hy
    rcases Nat.lt_succ_iff_lt_or_eq.mp hy with hlt | heq
    · exact hrows y hlt
    · subst heq; exact hfit

/-- Rows of `W` cells written at the 32-bit offsets `t * W` for all `t < H` fit in a
vector of `P < 2^32` cells only if `H * W ≤ P`. -/
theorem rows_fit (W H P : Nat) (hP : P < 2 ^ 32)
    (hc : ∀ t, t < H → (t * W) % 2 ^ 32 + W ≤ P) : H * W ≤ P := by
  have key : ∀ t, t ≤ H → t * W ≤ P := by
    intro t
    induction t with
    | zero => intro _; simp
    | succ t ih =>
      intro ht
      have h1 := ih (by omega)
      have h2 := hc t (by omega)
      rw [Nat.mod_eq_of_lt (by omega)] at h2
      rw [Nat.add_mul, Nat.one_mul]
      exact h2
  exact key H (Nat.le_refl H)

/-- When the `FlipY` loop of `_load` returns, the product `W * H` fits in 32 bits and
is the length of the vector. -/
theorem load_loop_length (mem : List Nat) (ds W H : Nat) (s : List Cell)
    (h : forUpTo (Reader.loadRow mem ds W H) H
      (List.replicate ((W * H) % 2 ^ 32) Cell.zero) = .ok s) :
    s.length = W * H ∧ W * H < 2 ^ 32 := by
  obtain ⟨hlen, hrows⟩ := load_loop_inv mem ds W H _ H s h
  have hP : (W * H) % 2 ^ 32 < 2 ^ 32 := Nat.mod_lt _ (by decide)
  have hfit := rows_fit W H _ hP (by
    intro t ht
    have := hrows (H - 1 - t) (by omega)
    rwa [show H - 1 - (H - 1 - t) = t by omega] at this)
  have hle : (W * H) % 2 ^ 32 ≤ W * H := Nat.mod_le _ _
  rw [Nat.mul_comm H W] at hfit
  constructor <;> omega

/-- A non-empty buffer returned by `_load` has the length to which the vector was
resized, the `uint32_t` product of the returned width and height. -/
theorem load_pixels_count (host : ByteOrder) (data : Option (List Nat)) (size : Nat)
    (J : PFMData) (h : Reader._load host data size = .ok J) (hne : J.pixels ≠ []) :
    J.pixels.length = (J.width * J.height) % 2 ^ 32 := by
  simp only [Reader._load] at h
  repeat' (split at h)
  all_goals first
    | (simp at h; done)
    | (simp at h; subst h; simp at hne; done)
    | (rename_i heq hc
       obtain ⟨hl, _⟩ := load_loop_inv _ _ _ _ _ _ _ heq
       simp only [Except.ok.injEq] at h
       subst h
       simp [hl])

/-! ## Words and byte orders -/

theorem isSystemLittleEndian_little : isSystemLittleEndian .little = true := by decide

theorem isSystemLittleEndian_big : isSystemLittleEndian .big = false := by decide

theorem uint32Bytes_eq (order : ByteOrder) (v : Nat) :
    uint32Bytes order v = (wordCell order v).bytes := by
  cases order <;> simp [uint32Bytes, wordCell, Cell.bytes]

theorem wordBytes_eq (order : ByteOrder) (words : List Nat) :
    wordBytes order words = payloadBytes (words.map (wordCell order)) := by
  simp only [wordBytes, payloadBytes, List.map_map]
  congr 1
  apply List.map_congr_left
  intro v _
  exact uint32Bytes_eq order v

theorem flipRows_map_bswap (W H : Nat) (cells : List Cell) :
    (flipRows W H cells).map __builtin_bswap32
      = flipRows W H (cells.map __builtin_bswap32) := by
  simp only [flipRows, List.map_map]
  apply List.map_congr_left
  intro i _
  simp only [Function.comp, List.getD_eq_getElem?_getD, List.getElem?_map]
  generalize cells[(H - 1 - i / W) * W + i % W]? = o
  cases o <;> rfl

/-- The pixels `_load` keeps of a payload of 32-bit numbers written in byte order
`order`, when the scale field is `> 0` exactly if `order` is big-endian: the numbers,
as they lie in the memory of the host, rows flipped. -/
theorem swap_words (host order : ByteOrder) (W H : Nat) (words : List Nat) (gt : Bool)
    (horder : gt = true ↔ order = .big) :
    (if gt != !isSystemLittleEndian host
      then (flipRows W H (words.map (wordCell order))).map __builtin_bswap32
      else flipRows W H (words.map (wordCell order)))
      = flipRows W H (words.map (wordCell host)) := by
  cases host <;> cases order <;> cases gt <;>
    simp [isSystemLittleEndian_little, isSystemLittleEndian_big] at horder ⊢
  · rw [flipRows_map_bswap, List.map_map]
    congr 2
  · rw [flipRows_map_bswap, List.map_map]
    congr 2

/-- `_load` on a complete file whose payload holds 32-bit numbers in the byte order that
the sign of the scale field selects. -/
theorem load_words (host order : ByteOrder) (W H : Nat) (st : List Nat) (words : List Nat)
    (tail : List Nat) (scale : Float32)
    (hW : W < 2 ^ 32) (hH : H < 2 ^ 32) (hlt : W * H < 2 ^ 32) (hst : 10 ∉ st)
    (hlen : words.length = W * H)
    (horder : scale.gt0 = true ↔ order = .big)
    (hscale : sscanf_f (st ++ 10 :: (wordBytes order words ++ tail)) = some scale) :
    Reader._load host (some (headerText W H st ++ wordBytes order words ++ tail))
        (headerText W H st ++ wordBytes order words).length
      = .ok { width := W, height := H, scaler := scale.abs,
              pixels := flipRows W H (words.map (wordCell host)) } := by
  rw [wordBytes_eq] at hscale ⊢
  have hl : (words.map (wordCell order)).length = W * H := by simpa using hlen
  rw [List.append_assoc, load_complete host W H st _ tail _ scale hW hH hlt hst hl
    (by rw [List.length_append, payloadBytes_length, hl]) hscale,
    swap_words host order W H words scale.gt0 horder]

theorem memcpyCells_error (v : List Cell) (k : Nat) (row : List Cell) (e : Failure)
    (h : memcpyCells v k row = .error e) : e = .memory_fault := by
  unfold memcpyCells at h
  split at h
  · simp at h
  · simp only [Except.error.injEq] at h
    exact h.symm

/-- The only failure of the `FlipY` loop of `_load` is a memory fault. -/
theorem load_loop_error (mem : List Nat) (ds W H P : Nat) :
    ∀ (k : Nat) (e : Failure),
      forUpTo (Reader.loadRow mem ds W H) k (List.replicate P Cell.zero) = .error e →
      e = .memory_fault := by
  intro k
  induction k with
  | zero => intro e h; simp [forUpTo] at h
  | succ k ih =>
    intro e h
    rw [forUpTo_succ] at h
    cases hk : forUpTo (Reader.loadRow mem ds W H) k (List.replicate P Cell.zero) with
    | error e' =>
      rw [hk] at h
      simp only [bind, Except.bind, Except.error.injEq] at h
      subst h
      exact ih e' hk
    | ok s' =>
      rw [hk] at h
      exact memcpyCells_error _ _ _ _ h

/-- When `W * H` does not fit in 32 bits the `FlipY` loop of `_load` writes outside the
pixel vector. -/
theorem load_loop_overflow (mem : List Nat) (ds W H : Nat) (hbig : 2 ^ 32 ≤ W * H) :
    forUpTo (Reader.loadRow mem ds W H) H (List.replicate ((W * H) % 2 ^ 32) Cell.zero)
      = .error .memory_fault := by
  cases h : forUpTo (Reader.loadRow mem ds W H) H
      (List.replicate ((W * H) % 2 ^ 32) Cell.zero) with
  | error e => rw [load_loop_error mem ds W H _ H e h]
  | ok s =>
    have := (load_loop_length mem ds W H s h).2
    omega

theorem wordBytes_length (order : ByteOrder) (words : List Nat) :
    (wordBytes order words).length = 4 * words.length := by
  rw [wordBytes_eq, payloadBytes_length, List.length_map]

/-- `_load` on a file whose header declares a product `W * H` that does not fit in 32
bits, followed by at least `4 * (W * H mod 2^32)` bytes: a memory fault. -/
theorem load_overflow (host : ByteOrder) (W H : Nat) (st rest : List Nat) (size : Nat)
    (scale : Float32) (hW : W < 2 ^ 32) (hH : H < 2 ^ 32) (hbig : 2 ^ 32 ≤ W * H)
    (hst : 10 ∉ st) (hsize : (headerText W H st).length + 4 * (W * H) ≤ size)
    (hscale : sscanf_f (st ++ 10 :: rest) = some scale) :
    Reader._load host (some (headerText W H st ++ rest)) size = .error .memory_fault := by
  have hle : (W * H) % 2 ^ 32 ≤ W * H := Nat.mod_le _ _
  rw [load_header host W H st rest size hW hH hst (by omega), hscale]
  simp only []
  rw [if_neg (by omega), load_loop_overflow _ _ W H hbig]

/-- C3. Byte-order invariance: for every host byte order, width and height (32-bit
numbers), scale fields and sequence of `W * H` 32-bit numbers, `_load` gives the same
pixels on the file with a negative scale field and the numbers in little-endian byte
order as on the file with a positive scale field and the numbers in big-endian byte
order; when `W * H < 2^32` both calls return, and the pixels are the numbers in the
representation of the host, rows flipped (otherwise both calls end in a memory fault). -/
theorem byte_order_invariance (host : ByteOrder) (W H : Nat) (words : List Nat)
    (tN tP tailN tailP : List Nat) (sN sP : Float32)
    (hW : W < 2 ^ 32) (hH : H < 2 ^ 32) (hlen : words.length = W * H)
    (hN : 10 ∉ tN) (hP : 10 ∉ tP)
    (hsN : sscanf_f (tN ++ 10 :: (wordBytes .little words ++ tailN)) = some sN)
    (hneg : sN.lt0 = true)
    (hsP : sscanf_f (tP ++ 10 :: (wordBytes .big words ++ tailP)) = some sP)
    (hpos : sP.gt0 = true) :
    Except.map PFMData.pixels
        (Reader._load host (some (headerText W H tN ++ wordBytes .little words ++ tailN))
          (headerText W H tN ++ wordBytes .little words).length)
      = Except.map PFMData.pixels
        (Reader._load host (some (headerText W H tP ++ wordBytes .big words ++ tailP))
          (headerText W H tP ++ wordBytes .big words).length)
    ∧ (W * H < 2 ^ 32 →
        Except.map PFMData.pixels
          (Reader._load host (some (headerText W H tN ++ wordBytes .little words ++ tailN))
            (headerText W H tN ++ wordBytes .little words).length)
          = .ok (flipRows W H (words.map (wordCell host)))) := by
  by_cases hlt : W * H < 2 ^ 32
  · have hgN : sN.gt0 = false := lt0_not_gt0 _ hneg
    rw [load_words host .little W H tN words tailN sN hW hH hlt hN hlen (by simp [hgN]) hsN,
      load_words host .big W H tP words tailP sP hW hH hlt hP hlen (by simp [hpos]) hsP]
    exact ⟨rfl, fun _ => rfl⟩
  · rw [List.append_assoc, List.append_assoc,
      load_overflow host W H tN _ _ sN hW hH (by omega) hN
        (by rw [List.length_append, wordBytes_length, hlen]) hsN,
      load_overflow host W H tP _ _ sP hW hH (by omega) hP
        (by rw [List.length_append, wordBytes_length, hlen]) hsP]
    exact ⟨rfl, fun h => absurd h hlt⟩

set_option maxRecDepth 100000 in
/-- C3, witness: the number `0x3F800000` (1.0) as a 1 x 1 file in both byte orders, with
scale fields `-1` and `1`, read on a big-endian host. -/
theorem byte_order_invariance_witness :
    Except.map PFMData.pixels
        (Reader._load .big (some (headerText 1 1 [45, 49] ++ wordBytes .little [1065353216] ++ []))
          (headerText 1 1 [45, 49] ++ wordBytes .little [1065353216]).length)
      = Except.map PFMData.pixels
        (Reader._load .big (some (headerText 1 1 [49] ++ wordBytes .big [1065353216] ++ []))
          (headerText 1 1 [49] ++ wordBytes .big [1065353216]).length)
    ∧ (1 * 1 < 2 ^ 32 →
        Except.map PFMData.pixels
          (Reader._load .big (some (headerText 1 1 [45, 49] ++ wordBytes .little [1065353216] ++ []))
            (headerText 1 1 [45, 49] ++ wordBytes .little [1065353216]).length)
          = .ok (flipRows 1 1 ([1065353216].map (wordCell .big)))) :=
  byte_order_invariance .big 1 1 [1065353216] [45, 49] [49] [] [] ⟨true, 127, 0⟩ ⟨false, 127, 0⟩
    (by decide) (by decide) (by decide) (by decide) (by decide) (by decide) (by decide)
    (by decide) (by decide)

/-- C6, as stated, fails: on a little-endian host the 1 x 1 file with scale field `0`
and payload bytes 1, 2, 3, 4 is decoded without the byte swap. -/
theorem scale_zero_read_as_little_endian :
    Reader._load .little (some (headerText 1 1 [48] ++ payloadBytes [⟨1, 2, 3, 4⟩]))
        (headerText 1 1 [48] ++ payloadBytes [⟨1, 2, 3, 4⟩]).length
      = .ok { width := 1, height := 1, scaler := Float32.zero, pixels := [⟨1, 2, 3, 4⟩] }
    ∧ [(⟨1, 2, 3, 4⟩ : Cell)] ≠ [__builtin_bswap32 ⟨1, 2, 3, 4⟩] := by
  set_option maxRecDepth 100000 in decide

/-- C6, amended. The scale field selects the payload byte order by the test
`scale > 0`: when the value read is `> 0` the payload is read as big-endian, otherwise
(negative, zero or NaN) as little-endian.  Here "read as" means: a payload that holds
32-bit numbers in that byte order is decoded to those numbers in the representation of
the host (rows flipped). -/
theorem scale_sign_selects_byte_order (host order : ByteOrder) (W H : Nat) (st : List Nat)
    (words : List Nat) (tail : List Nat) (scale : Float32)
    (hW : W < 2 ^ 32) (hH : H < 2 ^ 32) (hlt : W * H < 2 ^ 32) (hst : 10 ∉ st)
    (hlen : words.length = W * H)
    (horder : order = if scale.gt0 then .big else .little)
    (hscale : sscanf_f (st ++ 10 :: (wordBytes order words ++ tail)) = some scale) :
    Reader._load host (some (headerText W H st ++ wordBytes order words ++ tail))
        (headerText W H st ++ wordBytes order words).length
      = .ok { width := W, height := H, scaler := scale.abs,
              pixels := flipRows W H (words.map (wordCell host)) } :=
  load_words host order W H st words tail scale hW hH hlt hst hlen
    (by rw [horder]; cases scale.gt0 <;> simp) hscale

set_option maxRecDepth 100000 in
/-- C6 amended, witness: scale field `0`, little-endian payload, little-endian host. -/
theorem scale_sign_selects_byte_order_witness :
    Reader._load .little (some (headerText 1 1 [48] ++ wordBytes .little [1065353216] ++ []))
        (headerText 1 1 [48] ++ wordBytes .little [1065353216]).length
      = .ok { width := 1, height := 1, scaler := Float32.abs ⟨false, 0, 0⟩,
              pixels := flipRows 1 1 ([1065353216].map (wordCell .little)) } :=
  scale_sign_selects_byte_order .little .little 1 1 [48] [1065353216] [] ⟨false, 0, 0⟩
    (by decide) (by decide) (by decide) (by decide) (by decide) (by decide) (by decide)

/-! ## The magic check -/

theorem strncmp_Pf (mem : List Nat) (h : strncmp mem [80, 102] 2 = 0) :
    deref mem 0 = 80 ∧ deref mem 1 = 102 := by
  match mem with
  | [] => simp [strncmp] at h
  | [a] =>
    simp only [strncmp, List.headD_cons, List.tail_cons, List.headD_nil] at h
    split at h
    · omega
    · split at h
      · omega
      · simp at h
  | a :: b :: t =>
    simp only [strncmp, List.headD_cons, List.tail_cons] at h
    split at h
    · omega
    · split at h
      · omega
      · split at h
        · omega
        · rename_i h1 _ h2
          simp only [ne_eq, Decidable.not_not] at h1 h2
          simp [deref, h1, h2]

theorem readRow_append_right (pre mem : List Nat) (k n : Nat) :
    readRow (pre ++ mem) pre.length k n = readRow mem 0 k n := by
  simp only [readRow, readCell_append_right, Nat.zero_add]

theorem loadRow_append_right (pre mem : List Nat) (W H : Nat) :
    Reader.loadRow (pre ++ mem) pre.length W H = Reader.loadRow mem 0 W H := by
  funext y pixels
  simp only [Reader.loadRow, readRow_append_right]

/-- C7, as stated, fails: an input that begins with `PfXYZ` and only then a newline
is decoded, with a non-empty pixel buffer. -/
theorem magic_line_tail_accepted :
    [80, 102, 88] ≠ [80, 102, 10] ∧
    Reader._load .little
        (some [80, 102, 88, 89, 90, 10, 49, 32, 49, 10, 45, 49, 10, 1, 2, 3, 4]) 17
      = .ok { width := 1, height := 1, scaler := ⟨false, 127, 0⟩, pixels := [⟨1, 2, 3, 4⟩] } := by
  set_option maxRecDepth 100000 in decide

/-- C7, amended. Magic check: `_load` returns the default `PFMData` (empty pixels) for
every input shorter than two bytes or whose first two bytes are not `Pf` (so `PF` is
rejected); the bytes between `Pf` and the first newline are skipped: with such bytes
inserted, and the size grown by their number, `_load` returns what it returns
without them. -/
theorem magic_check (host : ByteOrder) :
    (∀ (mem : List Nat) (size : Nat),
      (size < 2 ∨ deref mem 0 ≠ 80 ∨ deref mem 1 ≠ 102) →
      Reader._load host (some mem) size = .ok {}) ∧
    (∀ (junk : List Nat) (W H : Nat) (st rest : List Nat) (n : Nat),
      10 ∉ junk → W < 2 ^ 32 → H < 2 ^ 32 → 10 ∉ st →
      Reader._load host (some (headerLines ([80, 102] ++ junk) W H st ++ rest))
          ((headerLines ([80, 102] ++ junk) W H st).length + n)
        = Reader._load host (some (headerText W H st ++ rest))
          ((headerText W H st).length + n)) := by
  constructor
  · intro mem size h
    by_cases hs : strncmp mem [80, 102] 2 = 0
    · obtain ⟨h0, h1⟩ := strncmp_Pf mem hs
      have hsz : size < 2 := by
        rcases h with h | h | h
        · exact h
        · exact absurd h0 h
        · exact absurd h1 h
      have hsc : deref mem (scanToNewline mem size size 0) ≠ 10 := by
        rcases Nat.lt_succ_iff_lt_or_eq.mp hsz with h' | h'
        · have : size = 0 := by omega
          subst this
          simp [scanToNewline, h0]
        · subst h'
          simp [scanToNewline, h0, h1]
      simp only [Reader._load, hs, hsc, ne_eq, not_true_eq_false, not_false_eq_true, if_true,
        if_false]
    · simp only [Reader._load, hs, ne_eq, not_false_eq_true, if_true]
  · intro junk W H st rest n hj hW hH hst
    rw [load_headerLines host junk W H st rest _ hj hW hH hst (by omega),
      load_header host W H st rest _ hW hH hst (by omega),
      loadRow_append_right, loadRow_append_right]
    cases sscanf_f (st ++ 10 :: rest) with
    | none => rfl
    | some scale =>
      simp only []
      by_cases hc : n < W * H % 2 ^ 32 * 4
      · rw [if_pos (by omega), if_pos (by omega)]
      · rw [if_neg (by omega), if_neg (by omega)]

set_option maxRecDepth 100000 in
/-- C7 amended, witness: an input that starts with `PF`, and the input of the
counterexample against the same input without `XYZ`. -/
theorem magic_check_witness :
    Reader._load .little (some [80, 70, 10, 49, 32, 49, 10, 45, 49, 10, 1, 2, 3, 4]) 14
        = .ok {} ∧
    Reader._load .little (some (headerLines ([80, 102] ++ [88, 89, 90]) 1 1 [45, 49]
        ++ [1, 2, 3, 4])) ((headerLines ([80, 102] ++ [88, 89, 90]) 1 1 [45, 49]).length + 4)
      = Reader._load .little (some (headerText 1 1 [45, 49] ++ [1, 2, 3, 4]))
        ((headerText 1 1 [45, 49]).length + 4) :=
  ⟨(magic_check .little).1 [80, 70, 10, 49, 32, 49, 10, 45, 49, 10, 1, 2, 3, 4] 14
      (by decide),
   (magic_check .little).2 [88, 89, 90] 1 1 [45, 49] [1, 2, 3, 4] 4 (by decide) (by decide)
      (by decide) (by decide)⟩

/-! ## The guards of `_createPFMData` -/

/-- The only failure of the copy loop of `_createPFMData` is a memory fault. -/
theorem store_loop_error (data : PFMData) (P : Nat) :
    ∀ (k : Nat) (e : Failure),
      forUpTo (Reader.storeRow data) k (List.replicate P Cell.zero) = .error e →
      e = .memory_fault := by
  intro k
  induction k with
  | zero => intro e h; simp [forUpTo] at h
  | succ k ih =>
    intro e h
    rw [forUpTo_succ] at h
    cases hk : forUpTo (Reader.storeRow data) k (List.replicate P Cell.zero) with
    | error e' =>
      rw [hk] at h
      simp only [bind, Except.bind, Except.error.injEq] at h
      subst h
      exact ih e' hk
    | ok s' =>
      rw [hk] at h
      by_cases hc : k * data.width % 2 ^ 32 + data.width ≤ data.pixels.length
      · simp only [bind, Except.bind, Reader.storeRow, readCells, hc, if_true] at h
        exact memcpyCells_error _ _ _ _ h
      · simp only [bind, Except.bind, Reader.storeRow, readCells, hc, if_false,
          Except.error.injEq] at h
        exact h.symm

/-- C8, as stated, fails: a 1 x 1 image whose buffer holds two pixels is encoded; the
bytes are the header and the first pixel. -/
theorem length_mismatch_encoded :
    ([(⟨1, 2, 3, 4⟩ : Cell), ⟨5, 6, 7, 8⟩].length ≠ 1 * 1) ∧
    Reader._createPFMData
        { width := 1, height := 1, scaler := ⟨false, 127, 0⟩,
          pixels := [⟨1, 2, 3, 4⟩, ⟨5, 6, 7, 8⟩] }
      = .ok [80, 102, 10, 49, 32, 49, 10, 45, 49, 46, 48, 48, 48, 48, 48, 48, 10,
             1, 2, 3, 4] := by
  set_option maxRecDepth 100000 in decide

/-- C8, amended. Encode validation of the buffer: `_createPFMData` returns the empty
byte vector exactly for the `PFMData` whose pixel buffer is empty (the length of a
non-empty buffer is not compared with `width * height`), and for those `saveToFile`
returns `false` and writes nothing, whatever the file system answers. -/
theorem empty_image_not_encoded (data : PFMData) :
    (Reader._createPFMData data = .ok [] ↔ data.pixels = []) ∧
    (data.pixels = [] → ∀ opens good, Reader.saveToFile opens good data = .ok (false, [])) := by
  have h1 : data.pixels = [] → Reader._createPFMData data = .ok [] := by
    intro h
    simp [Reader._createPFMData, PFMData.isValid, h]
  refine ⟨⟨?_, h1⟩, fun h opens good => by simp [Reader.saveToFile, h1 h]⟩
  intro h
  by_contra hne
  have hv : data.isValid = true := by
    cases hp : data.pixels with
    | nil => exact absurd hp hne
    | cons c cs => simp [PFMData.isValid, hp]
  simp only [Reader._createPFMData, hv, Bool.not_true, Bool.false_eq_true, if_false] at h
  split at h
  · simp at h
  · split at h
    · simp at h
    · simp [Reader.header] at h

/-- C8 amended, witness: a 3 x 4 image with an empty buffer. -/
theorem empty_image_not_encoded_witness :
    Reader._createPFMData { width := 3, height := 4, scaler := ⟨false, 127, 0⟩ } = .ok [] ∧
    ∀ opens good, Reader.saveToFile opens good
      { width := 3, height := 4, scaler := ⟨false, 127, 0⟩ } = .ok (false, []) :=
  ⟨(empty_image_not_encoded { width := 3, height := 4, scaler := ⟨false, 127, 0⟩ }).1.2 rfl,
   (empty_image_not_encoded { width := 3, height := 4, scaler := ⟨false, 127, 0⟩ }).2 rfl⟩

/-- C9, as stated, fails: for the default `PFMData` (scaler 0, empty buffer) no
exception is raised; the empty byte vector is returned. -/
theorem nonpositive_scaler_empty_buffer :
    Float32.le0 ({} : PFMData).scaler = true ∧ Reader._createPFMData {} = .ok [] := by
  decide

/-- C9, amended. Encode validation of the scaler: for every `PFMData` with a non-empty
pixel buffer and scaler `<= 0`, `_createPFMData` throws `invalid_argument` with the
message "scaler must greater than 0" and emits no bytes; with an empty buffer it
returns the empty byte vector without throwing; and it never throws `invalid_argument`
when the scaler is `> 0` (nor when it is a NaN). -/
theorem nonpositive_scaler_rejected (data : PFMData) :
    (data.pixels ≠ [] → data.scaler.le0 = true →
      Reader._createPFMData data = .error (.invalid_argument ("scaler must greater than 0"))) ∧
    (data.pixels = [] → Reader._createPFMData data = .ok []) ∧
    (data.scaler.le0 = false →
      ∀ what, Reader._createPFMData data ≠ .error (.invalid_argument what)) ∧
    (data.scaler.gt0 = true →
      ∀ what, Reader._createPFMData data ≠ .error (.invalid_argument what)) := by
  have hvalid : data.pixels ≠ [] → data.isValid = true := by
    intro hne
    cases hp : data.pixels with
    | nil => exact absurd hp hne
    | cons c cs => simp [PFMData.isValid, hp]
  have hno : data.scaler.le0 = false →
      ∀ what, Reader._createPFMData data ≠ .error (.invalid_argument what) := by
    intro hle what hcontra
    unfold Reader._createPFMData at hcontra
    split at hcontra
    · simp at hcontra
    · rw [hle] at hcontra
      simp only [Bool.false_eq_true, if_false] at hcontra
      split at hcontra
      · rename_i e heq
        simp only [Except.error.injEq] at hcontra
        have := store_loop_error data _ _ e heq
        rw [this] at hcontra
        simp at hcontra
      · simp at hcontra
  refine ⟨?_, ?_, hno, fun hgt => hno (gt0_not_le0 _ hgt)⟩
  · intro hne hle
    simp [Reader._createPFMData, hvalid hne, hle]
  · intro hnil
    simp [Reader._createPFMData, PFMData.isValid, hnil]

/-- C9 amended, witness: a 1 x 1 image with scaler `-0.0`, one with an empty buffer, and
one with scaler 1.0. -/
theorem nonpositive_scaler_rejected_witness :
    Reader._createPFMData
        { width := 1, height := 1, scaler := ⟨true, 0, 0⟩, pixels := [⟨1, 2, 3, 4⟩] }
      = .error (.invalid_argument ("scaler must greater than 0")) ∧
    Reader._createPFMData { width := 1, height := 1, scaler := ⟨true, 0, 0⟩ } = .ok [] ∧
    ∀ what, Reader._createPFMData
        { width := 1, height := 1, scaler := ⟨false, 127, 0⟩, pixels := [⟨1, 2, 3, 4⟩] }
      ≠ .error (.invalid_argument what) :=
  ⟨(nonpositive_scaler_rejected
      { width := 1, height := 1, scaler := ⟨true, 0, 0⟩, pixels := [⟨1, 2, 3, 4⟩] }).1
      (by decide) (by decide),
   (nonpositive_scaler_rejected { width := 1, height := 1, scaler := ⟨true, 0, 0⟩ }).2.1 rfl,
   (nonpositive_scaler_rejected
      { width := 1, height := 1, scaler := ⟨false, 127, 0⟩, pixels := [⟨1, 2, 3, 4⟩] }).2.2.2
      (by decide)⟩

/-! ## Round trip on a big-endian host -/

/-- C10, the code on a big-endian host: for every valid image, `_load` applied to the
bytes of `_createPFMData` returns every pixel with its four bytes reversed.  The
encoder copies the pixels in the byte order of the host but always writes the sign `-`,
which `_load` takes for little-endian. -/
theorem roundtrip_big_endian_swaps (I : PFMData) (tail : List Nat)
    (hs : I.scaler.gt0 = true) (hw : 0 < I.width) (hh : 0 < I.height)
    (hlen : I.pixels.length = I.width * I.height) (hlt : I.width * I.height < 2 ^ 32) :
    ∃ bytes J, Reader._createPFMData I = .ok bytes ∧
      Reader._load .big (some (bytes ++ tail)) bytes.length = .ok J ∧
      J.width = I.width ∧ J.height = I.height ∧
      J.pixels = I.pixels.map __builtin_bswap32 := by
  have hpos : 0 < I.width * I.height := Nat.mul_pos hw hh
  have hne : I.pixels ≠ [] := by
    intro h; rw [h] at hlen; simp at hlen; omega
  have hW : I.width < 2 ^ 32 := by
    have := Nat.le_mul_of_pos_right I.width hh; omega
  have hH : I.height < 2 ^ 32 := by
    have := Nat.le_mul_of_pos_left I.height hw; omega
  have hst : 10 ∉ 45 :: format_f I.scaler := by
    simp only [List.mem_cons, not_or]
    exact ⟨by decide, format_f_no_newline _⟩
  have hflen : (flipRows I.width I.height I.pixels).length = I.width * I.height :=
    flipRows_length _ _ _
  obtain ⟨v, hv, hvgt⟩ := sscanf_f_scale_line I.scaler
    (payloadBytes (flipRows I.width I.height I.pixels) ++ tail) hs
  have hload := load_complete .big I.width I.height (45 :: format_f I.scaler) _ tail
    (headerText I.width I.height (45 :: format_f I.scaler)
      ++ payloadBytes (flipRows I.width I.height I.pixels)).length v hW hH hlt
      hst hflen (by rw [List.length_append, payloadBytes_length, hflen]) hv
  rw [hvgt, if_pos (by decide), flipRows_flipRows _ _ _ hlen, ← List.append_assoc] at hload
  exact ⟨_, _, createPFMData_valid I hne (gt0_not_le0 _ hs) hlen hlt, hload, rfl, rfl, rfl⟩

set_option maxRecDepth 100000 in
/-- C10, failing input: the 1 x 1 image with pixel bytes 1, 2, 3, 4 and scaler 1.0 comes
back on a big-endian host with pixel bytes 4, 3, 2, 1. -/
theorem roundtrip_big_endian_swaps_witness :
    ∃ bytes J,
      Reader._createPFMData
          { width := 1, height := 1, scaler := ⟨false, 127, 0⟩, pixels := [⟨1, 2, 3, 4⟩] }
        = .ok bytes ∧
      Reader._load .big (some (bytes ++ [])) bytes.length = .ok J ∧
      J.width = 1 ∧ J.height = 1 ∧ J.pixels = [⟨4, 3, 2, 1⟩] :=
  roundtrip_big_endian_swaps
    { width := 1, height := 1, scaler := ⟨false, 127, 0⟩, pixels := [⟨1, 2, 3, 4⟩] } []
    (by decide) (by decide) (by decide) (by decide) (by decide)


/-! ## Layout of the encoder output -/

theorem headerText_eq (W H : Nat) (st : List Nat) :
    headerText W H st
      = [80, 102, 10] ++ to_string W ++ [32] ++ to_string H ++ [10] ++ st ++ [10] := by
  simp [headerText, headerLines]

/-- C16. Encoded layout: for every valid image (non-empty buffer of `width * height`
cells, the product below `2^32`, scaler `> 0`), `_createPFMData` returns the text
`"Pf\n<width> <height>\n-<scaler>\n"` followed by exactly `width * height * 4` payload
bytes, and the four bytes of pixel (row `y`, column `x`), in the order they have in
memory, are the payload word of index `(height-1-y)*width + x`. -/
theorem encoded_layout (I : PFMData) (hne : I.pixels ≠ [])
    (hlen : I.pixels.length = I.width * I.height) (hlt : I.width * I.height < 2 ^ 32)
    (hs : I.scaler.gt0 = true) :
    ∃ payload : List Nat,
      Reader._createPFMData I
        = .ok (([80, 102, 10] ++ to_string I.width ++ [32] ++ to_string I.height ++ [10]
                ++ ([45] ++ format_f I.scaler) ++ [10]) ++ payload) ∧
      payload.length = I.width * I.height * 4 ∧
      ∀ y x, y < I.height → x < I.width →
        readCell payload (4 * ((I.height - 1 - y) * I.width + x))
          = I.pixels.getD (y * I.width + x) Cell.zero := by
  have hfl := flipRows_length I.width I.height I.pixels
  refine ⟨payloadBytes (flipRows I.width I.height I.pixels), ?_, ?_, ?_⟩
  · rw [createPFMData_valid I hne (gt0_not_le0 _ hs) hlen hlt, headerText_eq]
    rfl
  · rw [payloadBytes_length, hfl]; omega
  · intro y x hy hx
    have h1 := mul_row_le I.width I.height (I.height - 1 - y) (by omega)
    have h2 := mul_row_le I.width I.height y hy
    have hread := readCell_payloadBytes (flipRows I.width I.height I.pixels) []
      ((I.height - 1 - y) * I.width + x) (by rw [hfl]; omega)
    rw [List.append_nil] at hread
    rw [hread, List.getD_eq_getElem?_getD, flipRows_getElem? _ _ _ hlen y x hy hx,
      List.getD_eq_getElem?_getD]

set_option maxRecDepth 100000 in
/-- C16, witness: the 2 x 2 image with top row 1.0 and bottom row 0.0; the payload
starts with the bottom row. -/
theorem encoded_layout_witness :
    ∃ payload : List Nat,
      Reader._createPFMData topOneBottomZero
        = .ok (([80, 102, 10] ++ to_string 2 ++ [32] ++ to_string 2 ++ [10]
                ++ ([45] ++ format_f ⟨false, 127, 0⟩) ++ [10]) ++ payload) ∧
      payload.length = 2 * 2 * 4 ∧
      ∀ y x, y < 2 → x < 2 →
        readCell payload (4 * ((2 - 1 - y) * 2 + x))
          = [Cell.one, Cell.one, Cell.zero, Cell.zero].getD (y * 2 + x) Cell.zero :=
  encoded_layout topOneBottomZero (by decide) (by decide) (by decide) (by decide)


/-! ## Encoding what was decoded -/

theorem abs_lt0_not_le0 (x : Float32) (h : x.lt0 = true) : x.abs.le0 = false := by
  simp only [Float32.lt0, Float32.isNaN, Float32.isZero, Bool.and_eq_true,
    Bool.not_eq_true'] at h
  simp only [Float32.le0, Float32.abs, Float32.isNaN, Float32.isZero, Bool.false_or]
  rw [h.2, Bool.and_false]

/-- C12, as stated, fails: on a little-endian host the 1 x 1 file with scale field `-1`
is decoded, and encoding the result gives the scale field `-1.000000`, seven bytes
more than the input. -/
theorem reencode_changes_scale_text :
    Reader._load .little (some [80, 102, 10, 49, 32, 49, 10, 45, 49, 10, 1, 2, 3, 4]) 14
      = .ok { width := 1, height := 1, scaler := ⟨false, 127, 0⟩, pixels := [⟨1, 2, 3, 4⟩] } ∧
    Reader._createPFMData
        { width := 1, height := 1, scaler := ⟨false, 127, 0⟩, pixels := [⟨1, 2, 3, 4⟩] }
      = .ok [80, 102, 10, 49, 32, 49, 10, 45, 49, 46, 48, 48, 48, 48, 48, 48, 10, 1, 2, 3, 4] ∧
    [80, 102, 10, 49, 32, 49, 10, 45, 49, 46, 48, 48, 48, 48, 48, 48, 10, 1, 2, 3, 4]
      ≠ [80, 102, 10, 49, 32, 49, 10, 45, 49, 10, 1, 2, 3, 4] := by
  set_option maxRecDepth 100000 in decide

/-- C12, amended. Reverse round trip on a little-endian host: for every input
`"Pf\n<W> <H>\n<scale field>\n"` followed by exactly `W * H * 4` payload bytes
(`W, H > 0`, `W * H < 2^32`) whose scale field is negative, `_load` succeeds and
`_createPFMData` of its result is `"Pf\n<W> <H>\n-<text of the scaler>\n"` followed by
the same payload bytes; this is the input, byte for byte, exactly when the scale field
of the input already is `-` followed by the six-decimal text of the decoded scaler. -/
theorem reencode_file (W H : Nat) (st : List Nat) (cells : List Cell) (tail : List Nat)
    (scale : Float32) (hw : 0 < W) (hh : 0 < H) (hlt : W * H < 2 ^ 32) (hst : 10 ∉ st)
    (hlen : cells.length = W * H)
    (hscale : sscanf_f (st ++ 10 :: (payloadBytes cells ++ tail)) = some scale)
    (hneg : scale.lt0 = true) :
    ∃ J bytes,
      Reader._load .little (some (headerText W H st ++ payloadBytes cells ++ tail))
          (headerText W H st ++ payloadBytes cells).length = .ok J ∧
      Reader._createPFMData J = .ok bytes ∧
      bytes = headerText W H (45 :: format_f scale.abs) ++ payloadBytes cells ∧
      (bytes = headerText W H st ++ payloadBytes cells ↔ st = 45 :: format_f scale.abs) := by
  have hpos : 0 < W * H := Nat.mul_pos hw hh
  have hW : W < 2 ^ 32 := by
    have := Nat.le_mul_of_pos_right W hh; omega
  have hH : H < 2 ^ 32 := by
    have := Nat.le_mul_of_pos_left H hw; omega
  have hload := load_complete .little W H st cells tail
    (headerText W H st ++ payloadBytes cells).length scale hW hH hlt hst hlen
    (by rw [List.length_append, payloadBytes_length, hlen]) hscale
  rw [lt0_not_gt0 _ hneg, if_neg (by decide), ← List.append_assoc] at hload
  have hfl := flipRows_length W H cells
  have hne : (flipRows W H cells) ≠ [] := by
    intro h; rw [h] at hfl; simp at hfl; omega
  have henc := createPFMData_valid
    { width := W, height := H, scaler := scale.abs, pixels := flipRows W H cells }
    hne (abs_lt0_not_le0 _ hneg) hfl hlt
  simp only [flipRows_flipRows W H cells hlen] at henc
  refine ⟨_, _, hload, henc, rfl, ?_⟩
  constructor
  · intro h
    have h1 := List.append_cancel_right h
    simp only [headerText, headerLines] at h1
    have h2 := List.append_cancel_left h1
    exact (List.append_cancel_right h2).symm
  · intro h; rw [h]

set_option maxRecDepth 100000 in
/-- C12 amended, witness: the 1 x 1 file with scale field `-1`. -/
theorem reencode_file_witness :
    ∃ J bytes,
      Reader._load .little (some (headerText 1 1 [45, 49] ++ payloadBytes [⟨1, 2, 3, 4⟩] ++ []))
          (headerText 1 1 [45, 49] ++ payloadBytes [⟨1, 2, 3, 4⟩]).length = .ok J ∧
      Reader._createPFMData J = .ok bytes ∧
      bytes = headerText 1 1 (45 :: format_f (Float32.abs ⟨true, 127, 0⟩))
        ++ payloadBytes [⟨1, 2, 3, 4⟩] ∧
      (bytes = headerText 1 1 [45, 49] ++ payloadBytes [⟨1, 2, 3, 4⟩]
        ↔ [45, 49] = 45 :: format_f (Float32.abs ⟨true, 127, 0⟩)) :=
  reencode_file 1 1 [45, 49] [⟨1, 2, 3, 4⟩] [] ⟨true, 127, 0⟩ (by decide) (by decide)
    (by decide) (by decide) (by decide) (by decide) (by decide)


/-! ## What a failed `_load` returns -/

theorem load_bad_magic (host : ByteOrder) (mem : List Nat) (size : Nat)
    (h : strncmp mem [80, 102] 2 ≠ 0) : Reader._load host (some mem) size = .ok {} := by
  simp only [Reader._load, h, ne_eq, not_false_eq_true, if_true]

theorem load_no_first_newline (host : ByteOrder) (mem : List Nat) (size : Nat)
    (h : deref mem (scanToNewline mem size size 0) ≠ 10) :
    Reader._load host (some mem) size = .ok {} := by
  by_cases hs : strncmp mem [80, 102] 2 ≠ 0
  · exact load_bad_magic host mem size hs
  · simp only [Reader._load, hs, h, ne_eq, not_false_eq_true, if_true, if_false]

theorem load_no_dimension (host : ByteOrder) (mem : List Nat) (size : Nat)
    (h : sscanf_u_u (mem.drop (scanToNewline mem size size 0 + 1)) = []) :
    Reader._load host (some mem) size = .ok {} := by
  by_cases hn : deref mem (scanToNewline mem size size 0) ≠ 10
  · exact load_no_first_newline host mem size hn
  · by_cases hs : strncmp mem [80, 102] 2 ≠ 0
    · exact load_bad_magic host mem size hs
    · simp only [Reader._load, hs, hn, h, ne_eq, not_false_eq_true, if_true, if_false]

/-- C13, as stated, fails: on the 1 x 1 file whose payload is one byte short, `_load`
fails (empty pixels) but returns the width, height and scaler it has parsed. -/
theorem truncated_result_keeps_header :
    Reader._load .little (some [80, 102, 10, 49, 32, 49, 10, 45, 49, 10, 1, 2, 3]) 13
      = .ok { width := 1, height := 1, scaler := ⟨false, 127, 0⟩, pixels := [] } ∧
    ({ width := 1, height := 1, scaler := ⟨false, 127, 0⟩, pixels := [] } : PFMData) ≠ {} := by
  set_option maxRecDepth 100000 in decide

/-- C13, amended. What `_load` returns when it fails, for every input and host; in each
case the pixel buffer is empty.  Null data, a bad magic, a first line without newline or
a dimension line of which nothing converts: the default `PFMData`.  Only one integer
converts: the width holds it, height and scaler are 0.  Two integers convert and the
second newline is missing or the scale does not convert: width and height hold them,
scaler is 0.  The scale converts and the third newline is missing or the payload is
truncated: width, height and scaler (the absolute value) are all set.  Conversely every
result with an empty pixel buffer is of one of these forms. -/
theorem load_failure_fields (host : ByteOrder) :
    (∀ size, Reader._load host none size = .ok {}) ∧
    (∀ mem size, strncmp mem [80, 102] 2 ≠ 0 → Reader._load host (some mem) size = .ok {}) ∧
    (∀ mem size, deref mem (newline1 mem size) ≠ 10 →
      Reader._load host (some mem) size = .ok {}) ∧
    (∀ mem size, sscanf_u_u (mem.drop (newline1 mem size + 1)) = [] →
      Reader._load host (some mem) size = .ok {}) ∧
    (∀ mem size w, strncmp mem [80, 102] 2 = 0 → deref mem (newline1 mem size) = 10 →
      sscanf_u_u (mem.drop (newline1 mem size + 1)) = [w] →
      Reader._load host (some mem) size = .ok { width := w }) ∧
    (∀ mem size w h, strncmp mem [80, 102] 2 = 0 → deref mem (newline1 mem size) = 10 →
      sscanf_u_u (mem.drop (newline1 mem size + 1)) = [w, h] →
      deref mem (newline2 mem size) ≠ 10 ∨ sscanf_f (mem.drop (newline2 mem size + 1)) = none →
      Reader._load host (some mem) size = .ok { width := w, height := h }) ∧
    (∀ mem size w h scale, strncmp mem [80, 102] 2 = 0 →
      deref mem (newline1 mem size) = 10 →
      sscanf_u_u (mem.drop (newline1 mem size + 1)) = [w, h] →
      deref mem (newline2 mem size) = 10 →
      sscanf_f (mem.drop (newline2 mem size + 1)) = some scale →
      deref mem (newline3 mem size) ≠ 10 ∨
        size < newline3 mem size + 1 + (w * h) % 2 ^ 32 * 4 →
      Reader._load host (some mem) size
        = .ok { width := w, height := h, scaler := scale.abs }) ∧
    (∀ mem size J, Reader._load host (some mem) size = .ok J → J.pixels = [] →
      J = {} ∨
      (∃ w, sscanf_u_u (mem.drop (newline1 mem size + 1)) = [w] ∧ J = { width := w }) ∨
      (∃ w h, sscanf_u_u (mem.drop (newline1 mem size + 1)) = [w, h] ∧
        (J = { width := w, height := h } ∨
         ∃ scale, sscanf_f (mem.drop (newline2 mem size + 1)) = some scale ∧
           J = { width := w, height := h, scaler := scale.abs }))) := by
  refine ⟨fun _ => rfl, load_bad_magic host, load_no_first_newline host,
    load_no_dimension host, ?_, ?_, ?_, ?_⟩
  · intro mem size w hm h1 hu
    simp only [newline1] at h1 hu
    simp only [Reader._load, hm, h1, hu, ne_eq, not_true_eq_false, if_false]
  · intro mem size w h hm h1 hu h2
    simp only [newline1, newline2] at h1 hu h2
    simp only [Reader._load, hm, h1, hu, ne_eq, not_true_eq_false, if_false]
    rcases h2 with h2 | h2
    · simp only [h2, not_false_eq_true, if_true]
    · simp only [h2]
      split <;> rfl
  · intro mem size w h scale hm h1 hu h2 hf h3
    simp only [newline1, newline2, newline3] at h1 hu h2 hf h3
    simp only [Reader._load, hm, h1, hu, h2, hf, ne_eq, not_true_eq_false, if_false]
    rcases h3 with h3 | h3
    · simp only [h3, not_false_eq_true, if_true]
    · simp only [gt_iff_lt, h3, if_true]
      split <;> rfl
  · intro mem size J h hfail
    simp only [newline1, newline2]
    simp only [Reader._load] at h
    repeat' (split at h)
    all_goals first
      | (simp at h; done)
      | (simp only [Except.ok.injEq] at h
         subst h
         exact Or.inl rfl)
      | (simp only [Except.ok.injEq] at h
         subst h
         exact Or.inr (Or.inl ⟨_, by assumption, rfl⟩))
      | (simp only [Except.ok.injEq] at h
         subst h
         exact Or.inr (Or.inr ⟨_, _, by assumption, Or.inl rfl⟩))
      | (simp only [Except.ok.injEq] at h
         subst h
         exact Or.inr (Or.inr ⟨_, _, by assumption, Or.inr ⟨_, by assumption, rfl⟩⟩))
      | (simp only [Except.ok.injEq] at h
         subst h
         simp only at hfail
         exact Or.inr (Or.inr ⟨_, _, by assumption, Or.inr ⟨_, by assumption,
           by simp only [hfail]⟩⟩))

set_option maxRecDepth 100000 in
/-- C13 amended, witness: `"PF..."` (bad magic), `"Pf\n7\n"` (one integer), `"Pf\n3 4"`
followed by a newline-free line (no second newline inside the buffer), and the 1 x 1
file whose payload is one byte short. -/
theorem load_failure_fields_witness :
    Reader._load .little (some [80, 70, 10, 49, 32, 49, 10, 45, 49, 10, 1, 2, 3, 4]) 14
        = .ok {} ∧
    Reader._load .little (some [80, 102, 10, 55, 10]) 5 = .ok { width := 7 } ∧
    Reader._load .little (some [80, 102, 10, 51, 32, 52]) 6
        = .ok { width := 3, height := 4 } ∧
    Reader._load .little (some [80, 102, 10, 49, 32, 49, 10, 45, 49, 10, 1, 2, 3]) 13
        = .ok { width := 1, height := 1, scaler := Float32.abs ⟨true, 127, 0⟩ } :=
  ⟨(load_failure_fields .little).2.1
      [80, 70, 10, 49, 32, 49, 10, 45, 49, 10, 1, 2, 3, 4] 14 (by decide),
   (load_failure_fields .little).2.2.2.2.1 [80, 102, 10, 55, 10] 5 7
      (by decide) (by decide) (by decide),
   (load_failure_fields .little).2.2.2.2.2.1 [80, 102, 10, 51, 32, 52] 6 3 4
      (by decide) (by decide) (by decide) (Or.inl (by decide)),
   (load_failure_fields .little).2.2.2.2.2.2.1
      [80, 102, 10, 49, 32, 49, 10, 45, 49, 10, 1, 2, 3] 13 1 1 ⟨true, 127, 0⟩
      (by decide) (by decide) (by decide) (by decide) (by decide) (Or.inr (by decide))⟩

/-! ## The dimension line -/

/-- C14, as stated, fails: the input `"Pf\n1\n1\n"` followed by four bytes, whose second
line holds the single integer 1, is decoded as a 1 x 1 image (the line `1` that follows
is read both as the height and as the scale field). -/
theorem dimensions_on_two_lines_accepted :
    Reader._load .little (some [80, 102, 10, 49, 10, 49, 10, 1, 2, 3, 4]) 11
      = .ok { width := 1, height := 1, scaler := ⟨false, 127, 0⟩, pixels := [⟨4, 3, 2, 1⟩] } ∧
    sscanf_u_u [49] = [1] := by
  set_option maxRecDepth 100000 in decide

/-- C14, amended. Dimension line: `_load` fails (empty pixels) for every input in which
`sscanf("%u %u")`, applied to the text that starts after the first newline, does not
convert two integers; white space, newlines included, is skipped before each integer,
so the two integers need not lie on the second line. -/
theorem dimensions_not_converted (host : ByteOrder) (mem : List Nat) (size : Nat)
    (h : (sscanf_u_u (mem.drop (scanToNewline mem size size 0 + 1))).length ≠ 2) :
    ∃ J, Reader._load host (some mem) size = .ok J ∧ J.pixels = [] := by
  by_cases hs : strncmp mem [80, 102] 2 ≠ 0
  · exact ⟨_, load_bad_magic host mem size hs, rfl⟩
  · by_cases hn : deref mem (scanToNewline mem size size 0) ≠ 10
    · exact ⟨_, load_no_first_newline host mem size hn, rfl⟩
    · simp only [Reader._load, hs, hn, ne_eq, not_false_eq_true, if_true, if_false]
      split
      · rename_i w h' heq
        rw [heq] at h
        simp at h
      · exact ⟨_, rfl, rfl⟩
      · exact ⟨_, rfl, rfl⟩

set_option maxRecDepth 100000 in
/-- C14 amended, witness: a second line `3` followed by a line that is not a number. -/
theorem dimensions_not_converted_witness :
    ∃ J, Reader._load .little (some [80, 102, 10, 51, 10, 120, 10, 1, 2, 3, 4]) 11 = .ok J ∧
      J.pixels = [] :=
  dimensions_not_converted .little [80, 102, 10, 51, 10, 120, 10, 1, 2, 3, 4] 11 (by decide)


/-! ## Header values -/

theorem abs_sign (x : Float32) : x.abs.sign = false := rfl

theorem abs_ge0 (x : Float32) (h : x.abs.isNaN = false) : x.abs.ge0 = true := by
  simp [Float32.ge0, h, abs_sign]

/-- C15, as stated, fails: on the 1 x 1 file with scale field `nan`, `_load` succeeds
and the scaler it returns is a NaN, for which `scaler >= 0` is false. -/
theorem nan_scale_accepted :
    Reader._load .little
        (some [80, 102, 10, 49, 32, 49, 10, 110, 97, 110, 10, 1, 2, 3, 4]) 15
      = .ok { width := 1, height := 1, scaler := Float32.nan, pixels := [⟨1, 2, 3, 4⟩] } ∧
    Float32.ge0 Float32.nan = false := by
  set_option maxRecDepth 100000 in decide

/-- C15, amended. Header values returned by decode: for every input on which `_load`
succeeds, the returned width and height are the two values that `sscanf("%u %u")`
converts from the text that starts after the first newline, and the returned scaler is
the floating-point absolute value of what `sscanf("%f")` converts from the text that
starts after the second newline; its sign bit is clear, so it is `>= 0` unless it is a
NaN.  For a header `"Pf\n<W> <H>\n<scale field>\n"` with `W, H < 2^32` the width and
height returned are `W` and `H`. -/
theorem load_header_values (host : ByteOrder) :
    (∀ mem size J, Reader._load host (some mem) size = .ok J → J.pixels ≠ [] →
      sscanf_u_u (mem.drop (scanToNewline mem size size 0 + 1)) = [J.width, J.height] ∧
      ∃ scale,
        sscanf_f (mem.drop (scanToNewline mem size
            (size - (scanToNewline mem size size 0 + 1))
            (scanToNewline mem size size 0 + 1) + 1)) = some scale ∧
        J.scaler = scale.abs ∧ J.scaler.sign = false ∧
        (J.scaler.isNaN = false → J.scaler.ge0 = true)) ∧
    (∀ W H st cells tail scale, W < 2 ^ 32 → H < 2 ^ 32 → W * H < 2 ^ 32 → 10 ∉ st →
      cells.length = W * H →
      sscanf_f (st ++ 10 :: (payloadBytes cells ++ tail)) = some scale →
      ∃ J, Reader._load host (some (headerText W H st ++ payloadBytes cells ++ tail))
            (headerText W H st ++ payloadBytes cells).length = .ok J ∧
        J.width = W ∧ J.height = H ∧ J.scaler = scale.abs) := by
  constructor
  · intro mem size J h hne
    simp only [Reader._load] at h
    repeat' (split at h)
    all_goals first
      | (simp at h; done)
      | (simp at h; subst h; simp at hne; done)
      | (simp only [Except.ok.injEq] at h
         subst h
         exact ⟨by assumption, _, by assumption, rfl, rfl, abs_ge0 _⟩)
  · intro W H st cells tail scale hW hH hlt hst hlen hscale
    have hload := load_complete host W H st cells tail
      (headerText W H st ++ payloadBytes cells).length scale hW hH hlt hst hlen
      (by rw [List.length_append, payloadBytes_length, hlen]) hscale
    rw [← List.append_assoc] at hload
    exact ⟨_, hload, rfl, rfl, rfl⟩

set_option maxRecDepth 100000 in
/-- C15 amended, witness: the 1 x 1 file with scale field `-1`. -/
theorem load_header_values_witness :
    ∃ J, Reader._load .little (some (headerText 1 1 [45, 49] ++ payloadBytes [⟨1, 2, 3, 4⟩] ++ []))
          (headerText 1 1 [45, 49] ++ payloadBytes [⟨1, 2, 3, 4⟩]).length = .ok J ∧
      J.width = 1 ∧ J.height = 1 ∧ J.scaler = Float32.abs ⟨true, 127, 0⟩ :=
  (load_header_values .little).2 1 1 [45, 49] [⟨1, 2, 3, 4⟩] [] ⟨true, 127, 0⟩
    (by decide) (by decide) (by decide) (by decide) (by decide) (by decide)

/-! ## Reads at and after `size` -/

/-- C18, the code on the 2-byte buffer `Pf`: what `_load` returns depends on the bytes
that follow the buffer in memory.  When they are `"\n3 4\n"` the newline loop stops at
position 2 = `size` and width 3, height 4 are returned; when a NUL follows, the default
`PFMData` is returned.  So the byte at position `size` and bytes after it are read. -/
theorem header_scan_reads_past_size :
    List.take 2 [80, 102, 10, 51, 32, 52, 10] = List.take 2 [80, 102, 0] ∧
    Reader._load .little (some [80, 102, 10, 51, 32, 52, 10]) 2
      = .ok { width := 3, height := 4 } ∧
    Reader._load .little (some [80, 102, 0]) 2 = .ok {} ∧
    Reader._load .little (some [80, 102, 10, 51, 32, 52, 10]) 2
      ≠ Reader._load .little (some [80, 102, 0]) 2 := by
  set_option maxRecDepth 100000 in decide


/-! ## Bytes after the payload -/

/-- The newline loop only passes positions below `size` that hold no newline. -/
theorem scanToNewline_inv (mem : List Nat) (size : Nat) :
    ∀ (fuel p : Nat), p ≤ scanToNewline mem size fuel p ∧
      ∀ i, p ≤ i → i < scanToNewline mem size fuel p → deref mem i ≠ 10 ∧ i < size := by
  intro fuel
  induction fuel with
  | zero =>
    intro p
    simp only [scanToNewline]
    exact ⟨Nat.le_refl p, fun i h1 h2 => absurd h2 (by omega)⟩
  | succ f ih =>
    intro p
    unfold scanToNewline
    split
    · rename_i hc
      obtain ⟨h1, h2⟩ := ih (p + 1)
      refine ⟨by omega, ?_⟩
      intro i hpi hir
      rcases Nat.eq_or_lt_of_le hpi with heq | hlt
      · subst heq; exact hc
      · exact h2 i (by omega) hir
    · exact ⟨Nat.le_refl p, fun i h1 h2 => absurd h2 (by omega)⟩

/-- A newline found by the newline loop is found again, at the same place, when `size`
is larger. -/
theorem scanToNewline_mono (mem : List Nat) (s s' q : Nat)
    (h10 : deref mem (scanToNewline mem s (s - q) q) = 10)
    (hle : scanToNewline mem s (s - q) q ≤ s') :
    scanToNewline mem s' (s' - q) q = scanToNewline mem s (s - q) q := by
  obtain ⟨h1, h2⟩ := scanToNewline_inv mem s (s - q) q
  obtain ⟨r, hr⟩ : ∃ r, scanToNewline mem s (s - q) q = r := ⟨_, rfl⟩
  rw [hr] at h1 h2 h10 hle ⊢
  have := scanToNewline_found mem s' (r - q) (s' - q) q (by omega) (by omega)
    (fun i hi => (h2 (q + i) (by omega) (by omega)).1)
    (by rw [show q + (r - q) = r by omega]; exact h10)
  rw [this]; omega

/-- The same memory read with a larger `size`: a success is not changed. -/
theorem load_size_mono (host : ByteOrder) (mem : List Nat) (s s' : Nat) (J : PFMData)
    (hle : s ≤ s') (h : Reader._load host (some mem) s = .ok J) (hne : J.pixels ≠ []) :
    Reader._load host (some mem) s' = .ok J := by
  simp only [Reader._load] at h
  repeat' (split at h)
  all_goals first
    | (simp at h; done)
    | (simp at h; subst h; simp at hne; done)
    | skip
  all_goals
    rename_i hs hd1 x1 w hh hquu hd2 x2 scale hqf hd3 hsz x3 pixels hloop hswap
    simp only [ne_eq, Decidable.not_not] at hs hd1 hd2 hd3
    have i1 := (scanToNewline_inv mem s s 0).1
    have i2 := (scanToNewline_inv mem s (s - (scanToNewline mem s s 0 + 1))
      (scanToNewline mem s s 0 + 1)).1
    have i3 := (scanToNewline_inv mem s
      (s - (scanToNewline mem s (s - (scanToNewline mem s s 0 + 1))
        (scanToNewline mem s s 0 + 1) + 1))
      (scanToNewline mem s (s - (scanToNewline mem s s 0 + 1))
        (scanToNewline mem s s 0 + 1) + 1)).1
    have a1 := scanToNewline_mono mem s s' 0 (by rw [Nat.sub_zero]; exact hd1)
      (by rw [Nat.sub_zero]; omega)
    simp only [Nat.sub_zero] at a1
    have a2 := scanToNewline_mono mem s s' (scanToNewline mem s s 0 + 1) hd2 (by omega)
    have a3 := scanToNewline_mono mem s s'
      (scanToNewline mem s (s - (scanToNewline mem s s 0 + 1))
        (scanToNewline mem s s 0 + 1) + 1) hd3 (by omega)
    have hsz' : ¬ (scanToNewline mem s
        (s - (scanToNewline mem s (s - (scanToNewline mem s s 0 + 1))
          (scanToNewline mem s s 0 + 1) + 1))
        (scanToNewline mem s (s - (scanToNewline mem s s 0 + 1))
          (scanToNewline mem s s 0 + 1) + 1) + 1 + w * hh % 2 ^ 32 * 4 > s') := by omega
    simp only [Reader._load, a1, a2, a3, hs, hd1, hquu, hd2, hqf, hd3, hsz', hloop, hswap,
      ne_eq, not_true_eq_false, if_false, if_true, Bool.false_eq_true]
    exact h


/-! ## Conversions that end on their line -/

theorem skipSpace_append (st t : List Nat) (h : ∃ c ∈ st, isspace c = false) :
    skipSpace (st ++ t) = skipSpace st ++ t ∧ skipSpace st ≠ [] ∧
      ∀ c ∈ skipSpace st, c ∈ st := by
  induction st with
  | nil => obtain ⟨c, hc, _⟩ := h; simp at hc
  | cons a u ih =>
    by_cases ha : isspace a = true
    · have hu : ∃ c ∈ u, isspace c = false := by
        obtain ⟨c, hc, hsp⟩ := h
        rcases List.mem_cons.mp hc with heq | hmem
        · subst heq; rw [ha] at hsp; exact absurd hsp (by decide)
        · exact ⟨c, hmem, hsp⟩
      obtain ⟨h1, h2, h3⟩ := ih hu
      simp only [List.cons_append, skipSpace, ha, if_true]
      exact ⟨h1, h2, fun c hc => List.mem_cons_of_mem _ (h3 c hc)⟩
    · simp only [List.cons_append, skipSpace, ha, if_false, Bool.false_eq_true]
      exact ⟨rfl, by simp, fun c hc => hc⟩

theorem scanSign_append (u t : List Nat) (h : u ≠ []) :
    scanSign (u ++ t) = ((scanSign u).1, (scanSign u).2 ++ t) ∧
      ∀ c ∈ (scanSign u).2, c ∈ u := by
  match u, h with
  | a :: u', _ =>
    by_cases h45 : a = 45
    · subst h45
      exact ⟨rfl, fun c hc => List.mem_cons_of_mem _ hc⟩
    · by_cases h43 : a = 43
      · subst h43
        exact ⟨rfl, fun c hc => List.mem_cons_of_mem _ hc⟩
      · have e1 : ∀ l : List Nat, scanSign (a :: l) = (false, a :: l) := by
          intro l
          unfold scanSign
          split
          · rename_i heq; simp at heq; exact absurd heq.1 h45
          · rename_i heq; simp at heq; exact absurd heq.1 h43
          · rfl
        rw [List.cons_append, e1, e1]
        exact ⟨rfl, fun c hc => hc⟩

/-- A run of digits that is followed by a newline ends before it, whatever comes after
the newline. -/
theorem scanDigits_line (val : Nat → Option Nat) (base : Nat) (hval : val 10 = none) :
    ∀ (v : List Nat) (acc cnt : Nat), ∃ a n v', (∀ c ∈ v', c ∈ v) ∧
      ∀ r, scanDigits val base acc cnt (v ++ 10 :: r) = (a, n, v' ++ 10 :: r) := by
  intro v
  induction v with
  | nil =>
    intro acc cnt
    refine ⟨acc, cnt, [], fun c hc => hc, ?_⟩
    intro r
    simp [scanDigits, hval]
  | cons c u ih =>
    intro acc cnt
    cases hc : val c with
    | none =>
      refine ⟨acc, cnt, c :: u, fun x hx => hx, ?_⟩
      intro r
      simp [scanDigits, hc]
    | some d =>
      obtain ⟨a, n, v', hv', h⟩ := ih (acc * base + d) (cnt + 1)
      refine ⟨a, n, v', fun x hx => List.mem_cons_of_mem _ (hv' x hx), ?_⟩
      intro r
      simp only [List.cons_append, scanDigits, hc]
      exact h r

theorem decval_newline : decval 10 = none := by decide

theorem hexval_newline : hexval 10 = none := by decide

theorem scanExponent_line (marker : Nat) (hm : marker ≠ 10) (v r r' : List Nat) :
    scanExponent marker (v ++ 10 :: r) = scanExponent marker (v ++ 10 :: r') := by
  cases v with
  | nil =>
    have : tolower 10 ≠ marker := by
      have : tolower 10 = 10 := by decide
      rw [this]; exact fun h => hm h.symm
    simp [scanExponent, this]
  | cons c t =>
    simp only [List.cons_append, scanExponent]
    split
    · cases t with
      | nil =>
        have e : ∀ l : List Nat, scanSign ([] ++ 10 :: l) = (false, 10 :: l) := fun l => rfl
        have e2 : ∀ l : List Nat, scanDigits decval 10 0 0 (10 :: l) = (0, 0, 10 :: l) := by
          intro l; simp [scanDigits, decval_newline]
        simp only [e, e2]
      | cons b t' =>
        obtain ⟨h1, _⟩ := scanSign_append (b :: t') (10 :: r) (by simp)
        obtain ⟨h1', _⟩ := scanSign_append (b :: t') (10 :: r') (by simp)
        obtain ⟨a, n, v', _, h2⟩ := scanDigits_line decval 10 decval_newline
          (scanSign (b :: t')).2 0 0
        rw [h1, h1']
        simp only [h2]
    · rfl


theorem scanDecimal_line (v r r' : List Nat) :
    scanDecimal (v ++ 10 :: r) = scanDecimal (v ++ 10 :: r') := by
  obtain ⟨a, n, v', _, h1⟩ := scanDigits_line decval 10 decval_newline v 0 0
  cases v' with
  | nil =>
    have e := scanExponent_line 101 (by decide) [] r r'
    simp only [List.nil_append] at e
    simp only [scanDecimal, h1, List.nil_append, e]
  | cons c t =>
    by_cases hc : c = 46
    · subst hc
      obtain ⟨a2, n2, v2, _, h3⟩ := scanDigits_line decval 10 decval_newline t a 0
      simp only [scanDecimal, h1, List.cons_append, h3,
        scanExponent_line 101 (by decide) v2 r r']
    · have e := scanExponent_line 101 (by decide) (c :: t) r r'
      simp only [List.cons_append] at e
      simp [scanDecimal, h1, hc, e]

theorem scanHex_line (v r r' : List Nat) :
    scanHex (v ++ 10 :: r) = scanHex (v ++ 10 :: r') := by
  match v with
  | [] => rfl
  | [a] =>
    by_cases ha : a = 48
    · subst ha; rfl
    · have e : ∀ l : List Nat, scanHex ([a] ++ 10 :: l) = none := by
        intro l
        unfold scanHex
        split
        · rename_i heq; simp at heq; exact absurd heq.1 ha
        · rfl
      rw [e, e]
  | a :: x :: t =>
    by_cases ha : a = 48
    · subst ha
      obtain ⟨a1, n, v', _, h1⟩ := scanDigits_line hexval 16 hexval_newline t 0 0
      cases v' with
      | nil =>
        have e := scanExponent_line 112 (by decide) [] r r'
        simp only [List.nil_append] at e
        simp only [List.cons_append, scanHex, h1, List.nil_append, e]
      | cons c u =>
        by_cases hc : c = 46
        · subst hc
          obtain ⟨a2, n2, v2, _, h3⟩ := scanDigits_line hexval 16 hexval_newline u a1 0
          simp only [scanHex, h1, List.cons_append, h3,
            scanExponent_line 112 (by decide) v2 r r']
        · have e := scanExponent_line 112 (by decide) (c :: u) r r'
          simp only [List.cons_append] at e
          simp [scanHex, h1, hc, e]
    · have e : ∀ l : List Nat, scanHex (a :: x :: t ++ 10 :: l) = none := by
        intro l
        unfold scanHex
        split
        · rename_i heq; simp at heq; exact absurd heq.1 ha
        · rfl
      rw [e, e]

theorem scanMagnitude_else (s : List Nat)
    (h : ∀ a b c t, s = a :: b :: c :: t →
      ¬ (tolower a = 105 ∧ tolower b = 110 ∧ tolower c = 102) ∧
      ¬ (tolower a = 110 ∧ tolower b = 97 ∧ tolower c = 110)) :
    scanMagnitude s = (scanHex s).orElse (fun _ => scanDecimal s) := by
  unfold scanMagnitude
  split
  · rename_i a b c t
    obtain ⟨h1, h2⟩ := h a b c t rfl
    rw [if_neg h1, if_neg h2]
  · rfl

theorem scanMagnitude_line (v r r' : List Nat) (hv : 10 ∉ v) :
    scanMagnitude (v ++ 10 :: r) = scanMagnitude (v ++ 10 :: r') := by
  have h10 : tolower 10 = 10 := by decide
  match v, hv with
  | [], _ =>
    rw [scanMagnitude_else, scanMagnitude_else, scanHex_line [] r r',
      scanDecimal_line [] r r']
    · intro a b c t heq
      simp only [List.nil_append, List.cons.injEq] at heq
      rw [← heq.1, h10]; simp
    · intro a b c t heq
      simp only [List.nil_append, List.cons.injEq] at heq
      rw [← heq.1, h10]; simp
  | [x], _ =>
    rw [scanMagnitude_else, scanMagnitude_else, scanHex_line [x] r r',
      scanDecimal_line [x] r r']
    · intro a b c t heq
      simp only [List.cons_append, List.nil_append, List.cons.injEq] at heq
      rw [← heq.2.1, h10]; simp
    · intro a b c t heq
      simp only [List.cons_append, List.nil_append, List.cons.injEq] at heq
      rw [← heq.2.1, h10]; simp
  | [x, y], _ =>
    rw [scanMagnitude_else, scanMagnitude_else, scanHex_line [x, y] r r',
      scanDecimal_line [x, y] r r']
    · intro a b c t heq
      simp only [List.cons_append, List.nil_append, List.cons.injEq] at heq
      rw [← heq.2.2.1, h10]; simp
    · intro a b c t heq
      simp only [List.cons_append, List.nil_append, List.cons.injEq] at heq
      rw [← heq.2.2.1, h10]; simp
  | x :: y :: z :: t, _ =>
    simp only [List.cons_append, scanMagnitude]
    have e1 := scanHex_line (x :: y :: z :: t) r r'
    have e2 := scanDecimal_line (x :: y :: z :: t) r r'
    simp only [List.cons_append] at e1 e2
    rw [e1, e2]

/-- What `sscanf("%f")` converts from a line that is not blank does not depend on what
follows the newline that ends the line. -/
theorem sscanf_f_line (st r r' : List Nat) (hst : 10 ∉ st)
    (hns : ∃ c ∈ st, isspace c = false) :
    sscanf_f (st ++ 10 :: r) = sscanf_f (st ++ 10 :: r') := by
  obtain ⟨h1, hne, hmem⟩ := skipSpace_append st (10 :: r) hns
  obtain ⟨h1', _, _⟩ := skipSpace_append st (10 :: r') hns
  obtain ⟨h2, hmem2⟩ := scanSign_append (skipSpace st) (10 :: r) hne
  obtain ⟨h2', _⟩ := scanSign_append (skipSpace st) (10 :: r') hne
  have hv : 10 ∉ (scanSign (skipSpace st)).2 := fun h => hst (hmem _ (hmem2 _ h))
  simp only [sscanf_f, h1, h1', h2, h2', scanMagnitude_line _ r r' hv]


/-! ## C19: bytes after the payload -/

/-- `_load` on three header lines and a payload that lies inside the buffer does not
depend on the bytes that follow the payload when the scale line is not blank. -/
theorem load_lines_tail (host : ByteOrder) (junk : List Nat) (W H : Nat) (st : List Nat)
    (cells : List Cell) (t t' : List Nat) (s s' : Nat)
    (hj : 10 ∉ junk) (hW : W < 2 ^ 32) (hH : H < 2 ^ 32) (hlt : W * H < 2 ^ 32)
    (hst : 10 ∉ st) (hns : ∃ c ∈ st, isspace c = false) (hlen : cells.length = W * H)
    (hs : (headerLines ([80, 102] ++ junk) W H st).length + 4 * (W * H) ≤ s)
    (hs' : (headerLines ([80, 102] ++ junk) W H st).length + 4 * (W * H) ≤ s') :
    Reader._load host
        (some (headerLines ([80, 102] ++ junk) W H st ++ (payloadBytes cells ++ t))) s
      = Reader._load host
        (some (headerLines ([80, 102] ++ junk) W H st ++ (payloadBytes cells ++ t'))) s' := by
  have e := sscanf_f_line st (payloadBytes cells ++ t) (payloadBytes cells ++ t') hst hns
  cases hq : sscanf_f (st ++ 10 :: (payloadBytes cells ++ t')) with
  | none =>
    rw [load_headerLines host junk W H st _ s hj hW hH hst (by omega),
      load_headerLines host junk W H st _ s' hj hW hH hst (by omega), e, hq]
  | some scale =>
    rw [load_complete_lines host junk W H st cells t s scale hj hW hH hlt hst hlen hs
        (e.trans hq),
      load_complete_lines host junk W H st cells t' s' scale hj hW hH hlt hst hlen hs' hq]

set_option maxRecDepth 100000 in
/-- Claim C19, counterexample: the 12 bytes `"Pf\n1 1\n\n   5"` are decoded (blank scale
line, so the scale is converted from the payload bytes `"   5"`: 5.0), and followed by
`"9 "` or by `"8 "` they are decoded to images with the scalers 59.0 and 58.0. -/
theorem trailing_bytes_change_scaler :
    Reader._load .little (some [80, 102, 10, 49, 32, 49, 10, 10, 32, 32, 32, 53]) 12
      = .ok { width := 1, height := 1, scaler := ⟨false, 129, 2097152⟩,
              pixels := [⟨53, 32, 32, 32⟩] } ∧
    Reader._load .little
        (some ([80, 102, 10, 49, 32, 49, 10, 10, 32, 32, 32, 53] ++ [57, 32])) 14
      = .ok { width := 1, height := 1, scaler := ⟨false, 132, 7077888⟩,
              pixels := [⟨53, 32, 32, 32⟩] } ∧
    Reader._load .little
        (some ([80, 102, 10, 49, 32, 49, 10, 10, 32, 32, 32, 53] ++ [56, 32])) 14
      = .ok { width := 1, height := 1, scaler := ⟨false, 132, 6815744⟩,
              pixels := [⟨53, 32, 32, 32⟩] } ∧
    Reader._load .little
        (some ([80, 102, 10, 49, 32, 49, 10, 10, 32, 32, 32, 53] ++ [57, 32])) 14
      ≠ Reader._load .little (some [80, 102, 10, 49, 32, 49, 10, 10, 32, 32, 32, 53]) 12 ∧
    Reader._load .little
        (some ([80, 102, 10, 49, 32, 49, 10, 10, 32, 32, 32, 53] ++ [57, 32])) 14
      ≠ Reader._load .little
        (some ([80, 102, 10, 49, 32, 49, 10, 10, 32, 32, 32, 53] ++ [56, 32])) 14 := by
  decide

/-- Claim C19, amended: bytes after the payload are ignored by `_load` when the header
conversions do not reach them. (1) Reading the same memory with a larger `size` does
not change a successful result. (2) If the result on `b` is `J` (non-empty) whatever
follows `b` in memory, then the result on `b ++ e` is `J`. (3) For three header lines
with a scale line that is not blank, followed by at least `width * height` cells, the
result is the same with and without further bytes `e`, and only the first
`width * height` cells are used. -/
theorem trailing_bytes_ignored (host : ByteOrder) :
    (∀ (mem : List Nat) (s s' : Nat) (J : PFMData), s ≤ s' →
      Reader._load host (some mem) s = .ok J → J.pixels ≠ [] →
      Reader._load host (some mem) s' = .ok J) ∧
    (∀ (b e tail : List Nat) (J : PFMData),
      (∀ t, Reader._load host (some (b ++ t)) b.length = .ok J) → J.pixels ≠ [] →
      Reader._load host (some ((b ++ e) ++ tail)) (b ++ e).length = .ok J) ∧
    (∀ (junk : List Nat) (W H : Nat) (st : List Nat) (cells : List Cell)
        (extra e tail tail' : List Nat) (scale : Float32),
      10 ∉ junk → W < 2 ^ 32 → H < 2 ^ 32 → W * H < 2 ^ 32 → 10 ∉ st →
      (∃ c ∈ st, isspace c = false) → cells.length = W * H →
      sscanf_f (st ++ [10]) = some scale →
      Reader._load host
          (some (((headerLines ([80, 102] ++ junk) W H st ++ payloadBytes cells ++ extra)
            ++ e) ++ tail))
          ((headerLines ([80, 102] ++ junk) W H st ++ payloadBytes cells ++ extra) ++ e).length
        = Reader._load host
          (some ((headerLines ([80, 102] ++ junk) W H st ++ payloadBytes cells ++ extra)
            ++ tail'))
          (headerLines ([80, 102] ++ junk) W H st ++ payloadBytes cells ++ extra).length ∧
      Reader._load host
          (some ((headerLines ([80, 102] ++ junk) W H st ++ payloadBytes cells ++ extra)
            ++ tail'))
          (headerLines ([80, 102] ++ junk) W H st ++ payloadBytes cells ++ extra).length
        = .ok { width := W, height := H, scaler := scale.abs,
                pixels := if scale.gt0 != !isSystemLittleEndian host
                  then (flipRows W H cells).map __builtin_bswap32
                  else flipRows W H cells }) := by
  refine ⟨fun mem s s' J hle h hne => load_size_mono host mem s s' J hle h hne, ?_, ?_⟩
  · intro b e tail J h hne
    have h1 := h (e ++ tail)
    rw [← List.append_assoc] at h1
    exact load_size_mono host _ b.length (b ++ e).length J (by simp) h1 hne
  · intro junk W H st cells extra e tail tail' scale hj hW hH hlt hst hns hlen hscale
    have hp := payloadBytes_length cells
    have hq : sscanf_f (st ++ 10 :: (payloadBytes cells ++ (extra ++ tail'))) = some scale :=
      (sscanf_f_line st _ [] hst hns).trans hscale
    constructor
    · have := load_lines_tail host junk W H st cells (extra ++ (e ++ tail)) (extra ++ tail')
        ((headerLines ([80, 102] ++ junk) W H st ++ payloadBytes cells ++ extra) ++ e).length
        (headerLines ([80, 102] ++ junk) W H st ++ payloadBytes cells ++ extra).length
        hj hW hH hlt hst hns hlen
        (by simp only [List.length_append, hp, hlen]; omega)
        (by simp only [List.length_append, hp, hlen]; omega)
      simpa only [List.append_assoc] using this
    · have := load_complete_lines host junk W H st cells (extra ++ tail')
        (headerLines ([80, 102] ++ junk) W H st ++ payloadBytes cells ++ extra).length
        scale hj hW hH hlt hst hlen
        (by simp only [List.length_append, hp, hlen]; omega) hq
      simpa only [List.append_assoc] using this

set_option maxRecDepth 100000 in
/-- Claim C19, witness: the file `"Pf\n1 2\n-1\n"` with two cells and four more
payload bytes, followed by two further bytes. -/
theorem trailing_bytes_ignored_witness :
    Reader._load .little
        (some (((headerLines ([80, 102] ++ []) 1 2 [45, 49]
          ++ payloadBytes [⟨1, 2, 3, 4⟩, ⟨5, 6, 7, 8⟩] ++ [9, 10, 11, 12]) ++ [55, 55])
          ++ []))
        ((headerLines ([80, 102] ++ []) 1 2 [45, 49]
          ++ payloadBytes [⟨1, 2, 3, 4⟩, ⟨5, 6, 7, 8⟩] ++ [9, 10, 11, 12])
          ++ [55, 55]).length
      = Reader._load .little
        (some ((headerLines ([80, 102] ++ []) 1 2 [45, 49]
          ++ payloadBytes [⟨1, 2, 3, 4⟩, ⟨5, 6, 7, 8⟩] ++ [9, 10, 11, 12]) ++ []))
        (headerLines ([80, 102] ++ []) 1 2 [45, 49]
          ++ payloadBytes [⟨1, 2, 3, 4⟩, ⟨5, 6, 7, 8⟩] ++ [9, 10, 11, 12]).length ∧
    Reader._load .little
        (some ((headerLines ([80, 102] ++ []) 1 2 [45, 49]
          ++ payloadBytes [⟨1, 2, 3, 4⟩, ⟨5, 6, 7, 8⟩] ++ [9, 10, 11, 12]) ++ []))
        (headerLines ([80, 102] ++ []) 1 2 [45, 49]
          ++ payloadBytes [⟨1, 2, 3, 4⟩, ⟨5, 6, 7, 8⟩] ++ [9, 10, 11, 12]).length
      = .ok { width := 1, height := 2, scaler := (⟨true, 127, 0⟩ : Float32).abs,
              pixels := if (⟨true, 127, 0⟩ : Float32).gt0 != !isSystemLittleEndian .little
                then (flipRows 1 2 [⟨1, 2, 3, 4⟩, ⟨5, 6, 7, 8⟩]).map __builtin_bswap32
                else flipRows 1 2 [⟨1, 2, 3, 4⟩, ⟨5, 6, 7, 8⟩] } :=
  (trailing_bytes_ignored .little).2.2 [] 1 2 [45, 49] [⟨1, 2, 3, 4⟩, ⟨5, 6, 7, 8⟩]
    [9, 10, 11, 12] [55, 55] [] [] ⟨true, 127, 0⟩
    (by decide) (by decide) (by decide) (by decide) (by decide) (by decide) (by decide)
    (by decide)


/-! ## C11: the scaler written and read back -/

theorem format_f_sixDecimals (x : Float32) (hs : x.sign = false) (he : x.expo.val ≠ 255) :
    format_f x = to_string (sixDecimals x / 10 ^ 6)
      ++ 46 :: sixDigits (sixDecimals x % 10 ^ 6) := by
  simp [format_f, hs, he, sixDecimals]

theorem scanDigits_sixDigits (a b : Nat) (r : List Nat) (hb : b < 10 ^ 6) :
    scanDigits decval 10 a 0 (sixDigits b ++ 10 :: r) = (a * 10 ^ 6 + b, 6, 10 :: r) := by
  have hm : ∀ k, k % 10 < 10 := fun k => Nat.mod_lt _ (by decide)
  simp only [sixDigits, List.cons_append, List.nil_append]
  rw [scanDigits_digit _ _ _ _ (hm _), scanDigits_digit _ _ _ _ (hm _),
    scanDigits_digit _ _ _ _ (hm _), scanDigits_digit _ _ _ _ (hm _),
    scanDigits_digit _ _ _ _ (hm _), scanDigits_digit _ _ _ _ (hm _),
    scanDigits_stop _ _ _ _ _ (by
      intro c t h
      simp only [List.cons.injEq] at h
      rw [← h.1]; exact decval_newline)]
  have : (((((a * 10 + b / 100000 % 10) * 10 + b / 10000 % 10) * 10 + b / 1000 % 10) * 10
      + b / 100 % 10) * 10 + b / 10 % 10) * 10 + b % 10 = a * 10 ^ 6 + b := by
    norm_num at hb ⊢
    omega
  rw [this]

/-- The text of a number of millionths `q`, followed by a newline, is converted to the
binary32 value nearest to `q / 10^6`. -/
theorem scanDecimal_fixed (q : Nat) (r : List Nat) :
    scanDecimal (to_string (q / 10 ^ 6) ++ 46 :: (sixDigits (q % 10 ^ 6) ++ 10 :: r))
      = some (roundToBinary32 q (10 ^ 6)) := by
  have h1 : scanDigits decval 10 0 0
      (to_string (q / 10 ^ 6) ++ 46 :: (sixDigits (q % 10 ^ 6) ++ 10 :: r))
      = (q / 10 ^ 6, (to_string (q / 10 ^ 6)).length,
          46 :: (sixDigits (q % 10 ^ 6) ++ 10 :: r)) := by
    unfold to_string
    rw [scanDigits_decimalDigits _ _ 0 0 _ (Nat.le_refl _), scanDigits_stop]
    · simp
    · intro c' t' h
      simp only [List.cons.injEq] at h
      rw [← h.1]; decide
  have h2 := scanDigits_sixDigits (q / 10 ^ 6) (q % 10 ^ 6) r (Nat.mod_lt _ (by decide))
  have hq : q / 10 ^ 6 * 10 ^ 6 + q % 10 ^ 6 = q := Nat.div_add_mod' q (10 ^ 6)
  rw [hq] at h2
  have hx : scanExponent 101 (10 :: r) = 0 := by simp [scanExponent, tolower]
  simp only [scanDecimal, h1, h2, hx]
  simp [scaledToBinary32]

theorem scanMagnitude_fixed (a : Nat) (t : List Nat) :
    scanMagnitude (to_string a ++ 46 :: t) = scanDecimal (to_string a ++ 46 :: t) := by
  obtain ⟨m, hm⟩ := scanDecimal_to_string a t
  obtain ⟨d, ds, hds, hd⟩ := to_string_cons a
  have hall : ∀ c ∈ ds, isdigit c = true := fun c hc =>
    to_string_isdigit a c (by rw [hds]; exact List.mem_cons_of_mem _ hc)
  have hhex : scanHex (to_string a ++ 46 :: t) = none := by
    rw [hds]; exact scanHex_digits d ds t hall
  rw [scanMagnitude_else, hhex]
  · rfl
  · intro a' b' c' r heq
    rw [hds] at heq
    simp only [List.cons_append, List.cons.injEq] at heq
    rw [← heq.1, tolower_digit d hd]
    simp [isdigit] at hd
    constructor <;> omega

theorem roundToBinary32_sign (num den : Nat) : (roundToBinary32 num den).sign = false := by
  unfold roundToBinary32
  dsimp only
  split_ifs <;> rfl

/-- What `sscanf("%f")` converts from the scale line written for a scaler `> 0`. -/
theorem sscanf_f_scale_value (x : Float32) (rest : List Nat) (hx : x.gt0 = true) :
    sscanf_f (45 :: (format_f x ++ 10 :: rest))
      = some { (if x.expo.val = 255 then x else roundToBinary32 (sixDecimals x) (10 ^ 6))
          with sign := true } := by
  have hsign : x.sign = false := by
    simp [Float32.gt0] at hx; exact hx.1.1
  have h45 : isspace 45 = false := by decide
  by_cases h255 : x.expo.val = 255
  · have hfrac : x.frac.val = 0 := by
      simp [Float32.gt0, Float32.isNaN, h255] at hx
      exact hx.1.2
    have hf : format_f x = [105, 110, 102] := by simp [format_f, hsign, h255, hfrac]
    have hxv : x = Float32.inf := by
      cases x with
      | mk s e f =>
        simp only [Float32.inf, Float32.mk.injEq]
        exact ⟨hsign, Fin.ext h255, Fin.ext hfrac⟩
    rw [hf, if_pos h255, hxv]
    simp [sscanf_f, skipSpace, h45, scanSign, scanMagnitude, tolower]
  · rw [if_neg h255, format_f_sixDecimals x hsign h255]
    have := scanDecimal_fixed (sixDecimals x) rest
    rw [← scanMagnitude_fixed] at this
    simp only [List.append_assoc, List.cons_append] at this ⊢
    simp [sscanf_f, skipSpace, h45, scanSign]
    exact ⟨_, by simpa using this, rfl, rfl⟩


theorem roundHalfEven_exact (s d : Nat) (hd : 0 < d) : roundHalfEven (s * d) d = s := by
  unfold roundHalfEven
  simp only [Nat.mul_div_cancel _ hd, Nat.mul_mod_left]
  rw [if_neg (by omega)]

/-- The exponent that `roundToBinary32` computes brackets the quotient. -/
theorem quotient_log (N den : Nat) (hd : 0 < den) (hN : den ≤ N) :
    den * 2 ^ (if den * 2 ^ (highBit N N - highBit den den) ≤ N
        then highBit N N - highBit den den else highBit N N - highBit den den - 1) ≤ N ∧
    N < den * 2 ^ ((if den * 2 ^ (highBit N N - highBit den den) ≤ N
        then highBit N N - highBit den den else highBit N N - highBit den den - 1) + 1) := by
  obtain ⟨ha1, ha2⟩ := highBit_spec N N (Nat.le_refl _) (by omega)
  obtain ⟨hb1, hb2⟩ := highBit_spec den den (Nat.le_refl _) hd
  generalize highBit N N = a at *
  generalize highBit den den = b at *
  have hba : b ≤ a := by
    by_contra hc
    have : 2 ^ (a + 1) ≤ 2 ^ b := Nat.pow_le_pow_right (by decide) (by omega)
    omega
  have hup : N < den * 2 ^ (a - b + 1) := by
    have e : 2 ^ (a + 1) = 2 ^ b * 2 ^ (a - b + 1) := by
      rw [← pow_add]; congr 1; omega
    have : 2 ^ b * 2 ^ (a - b + 1) ≤ den * 2 ^ (a - b + 1) := Nat.mul_le_mul_right _ hb1
    omega
  split_ifs with h
  · exact ⟨h, hup⟩
  · have hl0 : 1 ≤ a - b := by
      by_contra hc
      have hz : a - b = 0 := by omega
      rw [hz] at h
      simp at h
      omega
    constructor
    · have e : 2 ^ a = 2 ^ (b + 1) * 2 ^ (a - b - 1) := by
        rw [← pow_add]; congr 1; omega
      have : den * 2 ^ (a - b - 1) ≤ 2 ^ (b + 1) * 2 ^ (a - b - 1) :=
        Nat.mul_le_mul_right _ (by omega)
      omega
    · rw [show a - b - 1 + 1 = a - b by omega]
      omega


theorem pow_bracket (l k s : Nat) (h1 : 2 ^ l ≤ s) (h2 : s < 2 ^ (l + 1))
    (h3 : 2 ^ k ≤ s) (h4 : s < 2 ^ (k + 1)) : l = k := by
  have a1 : 2 ^ l < 2 ^ (k + 1) := by omega
  have a2 : 2 ^ k < 2 ^ (l + 1) := by omega
  have a : l < k + 1 := (Nat.pow_lt_pow_iff_right (by decide)).mp a1
  have b : k < l + 1 := (Nat.pow_lt_pow_iff_right (by decide)).mp a2
  omega

/-- A quotient that is exactly a positive finite binary32 value is converted to it. -/
theorem roundToBinary32_exact (x : Float32) (num den : Nat) (hs : x.sign = false)
    (he : x.expo.val ≠ 255) (hnz : 0 < x.significand) (hd : 0 < den)
    (h : num * 2 ^ 149 = x.significand * 2 ^ (x.scale - 1) * den) :
    roundToBinary32 num den = x := by
  have hpos : 0 < x.significand * 2 ^ (x.scale - 1) := Nat.mul_pos hnz (by positivity)
  have hN : den ≤ num * 2 ^ 149 := by
    rw [h]; exact Nat.le_mul_of_pos_left _ hpos
  obtain ⟨hl1, hl2⟩ := quotient_log (num * 2 ^ 149) den hd hN
  unfold roundToBinary32
  dsimp only
  generalize (if den * 2 ^ (highBit (num * 2 ^ 149) (num * 2 ^ 149) - highBit den den)
      ≤ num * 2 ^ 149
    then highBit (num * 2 ^ 149) (num * 2 ^ 149) - highBit den den
    else highBit (num * 2 ^ 149) (num * 2 ^ 149) - highBit den den - 1) = l at hl1 hl2 ⊢
  rw [h] at hl1 hl2 ⊢
  have b1 : 2 ^ l ≤ x.significand * 2 ^ (x.scale - 1) := by
    rw [Nat.mul_comm den] at hl1
    exact Nat.le_of_mul_le_mul_right hl1 hd
  have b2 : x.significand * 2 ^ (x.scale - 1) < 2 ^ (l + 1) := by
    rw [Nat.mul_comm den] at hl2
    exact Nat.lt_of_mul_lt_mul_right hl2
  have key : ∀ s e : Nat, x.significand = s → x.scale - 1 = e → l - 23 = e →
      roundHalfEven (x.significand * 2 ^ (x.scale - 1) * den) (den * 2 ^ (l - 23)) = s := by
    intro s e h1 h2 h3
    rw [h1, h2, h3, Nat.mul_assoc, Nat.mul_comm (2 ^ e) den]
    exact roundHalfEven_exact s _ (Nat.mul_pos hd (by positivity))
  cases x with
  | mk sg ex fr =>
    simp only at hs
    subst hs
    by_cases h0 : ex.val = 0
    · have hsig : Float32.significand ⟨false, ex, fr⟩ = fr.val := by
        simp [Float32.significand, h0]
      have hsc : Float32.scale ⟨false, ex, fr⟩ - 1 = 0 := by
        simp [Float32.scale, h0]
      have hfr := fr.isLt
      have hl : l - 23 = 0 := by
        rw [hsig, hsc] at b1
        have : 2 ^ l < 2 ^ 23 := by omega
        have := (Nat.pow_lt_pow_iff_right (by decide)).mp this
        omega
      have c1 : ¬ (2 ^ 24 ≤ fr.val) := by omega
      have c2 : fr.val < 2 ^ 23 := by omega
      rw [key fr.val 0 hsig hsc hl]
      simp only [c1, c2, if_false, if_true, Float32.mk.injEq, true_and]
      exact ⟨Fin.ext (by simp [h0]), Fin.ext (by simp [Fin.ofNat])⟩
    · have hsig : Float32.significand ⟨false, ex, fr⟩ = 8388608 + fr.val := by
        simp [Float32.significand, h0]
      have hsc : Float32.scale ⟨false, ex, fr⟩ - 1 = ex.val - 1 := by
        simp [Float32.scale, h0]
      have hfr := fr.isLt
      have hex := ex.isLt
      simp only at he
      have hl : l = 22 + ex.val := by
        rw [hsig, hsc] at b1 b2
        refine pow_bracket l (22 + ex.val) _ b1 b2 ?_ ?_
        · rw [show 22 + ex.val = 23 + (ex.val - 1) by omega, pow_add]
          exact Nat.mul_le_mul_right _ (by omega)
        · rw [show 22 + ex.val + 1 = 24 + (ex.val - 1) by omega, pow_add]
          exact Nat.mul_lt_mul_of_pos_right (by omega) (by positivity)
      have c1 : ¬ (2 ^ 24 ≤ 8388608 + fr.val) := by omega
      have c2 : ¬ (8388608 + fr.val < 2 ^ 23) := by omega
      have c3 : ¬ (254 ≤ l - 23) := by omega
      rw [key (8388608 + fr.val) (ex.val - 1) hsig hsc (by omega)]
      simp only [c1, c2, c3, if_false, Float32.mk.injEq, true_and]
      exact ⟨Fin.ext (by simp [Fin.ofNat]; omega), Fin.ext (by simp [Fin.ofNat])⟩


theorem gt0_significand_pos (x : Float32) (h : x.gt0 = true) : 0 < x.significand := by
  simp only [Float32.gt0, Float32.isZero, Bool.and_eq_true, Bool.not_eq_true',
    Bool.and_eq_false_iff, beq_eq_false_iff_ne, ne_eq] at h
  unfold Float32.significand
  split
  · rename_i h0
    rcases h.2 with h1 | h1
    · exact absurd h0 h1
    · omega
  · omega

/-- A finite scaler that is a whole number of millionths is printed exactly. -/
theorem sixDecimals_exact (x : Float32)
    (hdvd : 2 ^ (150 - x.scale) ∣ x.significand * 10 ^ 6) (hsc : 1 ≤ x.scale) :
    sixDecimals x * 2 ^ 149 = x.significand * 2 ^ (x.scale - 1) * 10 ^ 6 := by
  obtain ⟨k, hk⟩ := hdvd
  have e1 : sixDecimals x = k * 2 ^ (x.scale - 150) := by
    unfold sixDecimals
    rw [hk, show 2 ^ (150 - x.scale) * k * 2 ^ (x.scale - 150)
      = k * 2 ^ (x.scale - 150) * 2 ^ (150 - x.scale) by ring]
    exact roundHalfEven_exact _ _ (by positivity)
  have e2 : 2 ^ (x.scale - 150) * 2 ^ 149 = 2 ^ (150 - x.scale) * 2 ^ (x.scale - 1) := by
    rw [← pow_add, ← pow_add,
      show x.scale - 150 + 149 = 150 - x.scale + (x.scale - 1) by omega]
  calc sixDecimals x * 2 ^ 149
      = k * (2 ^ (x.scale - 150) * 2 ^ 149) := by rw [e1]; ring
    _ = (2 ^ (150 - x.scale) * k) * 2 ^ (x.scale - 1) := by rw [e2]; ring
    _ = x.significand * 2 ^ (x.scale - 1) * 10 ^ 6 := by rw [← hk]; ring

theorem scale_pos (x : Float32) : 1 ≤ x.scale := by
  unfold Float32.scale
  split <;> omega

set_option maxRecDepth 100000 in
/-- Claim C11, counterexample: the 1 x 1 image with scaler `1 + 2^-23` is written with the
scale line `-1.000000` and read back with scaler 1.0; with scaler `2^-24` the scale line
is `-0.000000` and the scaler read back is 0. -/
theorem scaler_not_reproduced :
    (⟨false, 127, 1⟩ : Float32).gt0 = true ∧
    Reader._createPFMData
        { width := 1, height := 1, scaler := ⟨false, 127, 1⟩, pixels := [Cell.one] }
      = .ok [80, 102, 10, 49, 32, 49, 10, 45, 49, 46, 48, 48, 48, 48, 48, 48, 10,
          0, 0, 128, 63] ∧
    Reader._load .little (some [80, 102, 10, 49, 32, 49, 10, 45, 49, 46, 48, 48, 48, 48, 48,
        48, 10, 0, 0, 128, 63]) 21
      = .ok { width := 1, height := 1, scaler := ⟨false, 127, 0⟩, pixels := [Cell.one] } ∧
    (⟨false, 103, 0⟩ : Float32).gt0 = true ∧
    Reader._createPFMData
        { width := 1, height := 1, scaler := ⟨false, 103, 0⟩, pixels := [Cell.one] }
      = .ok [80, 102, 10, 49, 32, 49, 10, 45, 48, 46, 48, 48, 48, 48, 48, 48, 10,
          0, 0, 128, 63] ∧
    Reader._load .little (some [80, 102, 10, 49, 32, 49, 10, 45, 48, 46, 48, 48, 48, 48, 48,
        48, 10, 0, 0, 128, 63]) 21
      = .ok { width := 1, height := 1, scaler := ⟨false, 0, 0⟩, pixels := [Cell.one] } := by
  decide

/-- Claim C11, amended: for every image with scaler `> 0`, positive width and height and a
buffer of `width * height` cells (the product below `2^32`), `_load` on the bytes of
`_createPFMData` returns, on either host, the scaler rounded to six decimals and
converted back to binary32 (infinity is returned as infinity); it is the scaler of the
image when that scaler is a whole number of millionths. -/
theorem scaler_roundtrip (host : ByteOrder) (I : PFMData) (tail : List Nat)
    (hs : I.scaler.gt0 = true) (hw : 0 < I.width) (hh : 0 < I.height)
    (hlen : I.pixels.length = I.width * I.height) (hlt : I.width * I.height < 2 ^ 32) :
    ∃ bytes J, Reader._createPFMData I = .ok bytes ∧
      Reader._load host (some (bytes ++ tail)) bytes.length = .ok J ∧
      J.scaler = (if I.scaler.expo.val = 255 then I.scaler
        else roundToBinary32 (sixDecimals I.scaler) (10 ^ 6)) ∧
      (2 ^ (150 - I.scaler.scale) ∣ I.scaler.significand * 10 ^ 6 →
        J.scaler = I.scaler) := by
  have hpos : 0 < I.width * I.height := Nat.mul_pos hw hh
  have hne : I.pixels ≠ [] := by
    intro h; rw [h] at hlen; simp at hlen; omega
  have hW : I.width < 2 ^ 32 := by
    have := Nat.le_mul_of_pos_right I.width hh; omega
  have hH : I.height < 2 ^ 32 := by
    have := Nat.le_mul_of_pos_left I.height hw; omega
  have hst : 10 ∉ 45 :: format_f I.scaler := by
    simp only [List.mem_cons, not_or]
    exact ⟨by decide, format_f_no_newline _⟩
  have hflen : (flipRows I.width I.height I.pixels).length = I.width * I.height :=
    flipRows_length _ _ _
  have hsign : I.scaler.sign = false := by
    simp [Float32.gt0] at hs; exact hs.1.1
  have hv := sscanf_f_scale_value I.scaler
    (payloadBytes (flipRows I.width I.height I.pixels) ++ tail) hs
  have hload := load_complete host I.width I.height (45 :: format_f I.scaler) _ tail
    (headerText I.width I.height (45 :: format_f I.scaler)
      ++ payloadBytes (flipRows I.width I.height I.pixels)).length _ hW hH hlt
      hst hflen (by rw [List.length_append, payloadBytes_length, hflen]) hv
  rw [← List.append_assoc] at hload
  have hback : (Float32.abs { (if I.scaler.expo.val = 255 then I.scaler
        else roundToBinary32 (sixDecimals I.scaler) (10 ^ 6)) with sign := true })
      = (if I.scaler.expo.val = 255 then I.scaler
        else roundToBinary32 (sixDecimals I.scaler) (10 ^ 6)) := by
    split
    · cases hI : I.scaler with
      | mk s e f =>
        rw [hI] at hsign
        simp only at hsign
        simp [Float32.abs, hsign]
    · have := roundToBinary32_sign (sixDecimals I.scaler) (10 ^ 6)
      cases hr : roundToBinary32 (sixDecimals I.scaler) (10 ^ 6) with
      | mk s e f =>
        rw [hr] at this
        simp only at this
        simp [Float32.abs, this]
  refine ⟨_, _, createPFMData_valid I hne (gt0_not_le0 _ hs) hlen hlt, hload, hback, ?_⟩
  intro hdvd
  show Float32.abs _ = _
  rw [hback]
  split
  · rfl
  · rename_i h255
    exact roundToBinary32_exact I.scaler _ _ hsign h255 (gt0_significand_pos _ hs)
      (by decide) (sixDecimals_exact _ hdvd (scale_pos _))

set_option maxRecDepth 100000 in
/-- Claim C11, witness: the 2 x 2 image with scaler 1.0 comes back with scaler 1.0. -/
theorem scaler_roundtrip_witness :
    ∃ bytes J, Reader._createPFMData topOneBottomZero = .ok bytes ∧
      Reader._load .little (some (bytes ++ [])) bytes.length = .ok J ∧
      J.scaler = (if topOneBottomZero.scaler.expo.val = 255 then topOneBottomZero.scaler
        else roundToBinary32 (sixDecimals topOneBottomZero.scaler) (10 ^ 6)) ∧
      (2 ^ (150 - topOneBottomZero.scaler.scale)
          ∣ topOneBottomZero.scaler.significand * 10 ^ 6 →
        J.scaler = topOneBottomZero.scaler) :=
  scaler_roundtrip .little topOneBottomZero [] (by decide) (by decide) (by decide)
    (by decide) (by decide)


/-! ## C17: the saturation bound of the SDF pipeline -/

theorem saturate_bound (spread : Nat) (v : ℚ) :
    |SDFExecutor.saturate spread v| ≤ (spread : ℚ) := by
  have h0 : (0 : ℚ) ≤ (spread : ℚ) := Nat.cast_nonneg _
  unfold SDFExecutor.saturate
  rw [abs_le]
  exact ⟨le_max_left _ _, max_le (by linarith) (min_le_left _ _)⟩

theorem spread_bound (spread : Nat) : |(spread : ℚ)| ≤ (spread : ℚ) := by
  rw [abs_of_nonneg (Nat.cast_nonneg _)]

theorem finalize_bound (e : SDFExecutor) (root : Nat → ℚ) (imageData : List Nat)
    (threshold : Nat) (buf : List (Option (Nat × Nat))) :
    ∀ v ∈ e.finalize root imageData threshold buf, |v| ≤ (e.spread : ℚ) := by
  intro v hv
  simp only [SDFExecutor.finalize, List.mem_map] at hv
  obtain ⟨i, _, hi⟩ := hv
  rw [← hi]
  split
  · exact spread_bound _
  · exact saturate_bound _ _

theorem getD_bound (field : List ℚ) (s : ℚ) (i : Nat) (hs : |s| ≤ s)
    (h : ∀ v ∈ field, |v| ≤ s) : |field.getD i s| ≤ s := by
  rw [List.getD_eq_getElem?_getD]
  cases hq : field[i]? with
  | none => exact hs
  | some v => exact h v (List.getElem?_mem hq)

theorem getD_unknown (buf : List (Option (Nat × Nat))) (i : Nat)
    (h : ∀ r ∈ buf, r = none) : buf.getD i none = none := by
  rw [List.getD_eq_getElem?_getD]
  cases hq : buf[i]? with
  | none => rfl
  | some v => exact h v (List.getElem?_mem hq)

/-- A jump-flood pass over a buffer without a resolved seed resolves none. -/
theorem jumpFlood_unknown (e : SDFExecutor) (step : Nat) (buf : List (Option (Nat × Nat)))
    (h : ∀ r ∈ buf, r = none) : ∀ r ∈ e.jumpFlood step buf, r = none := by
  intro r hr
  simp only [SDFExecutor.jumpFlood, List.mem_map] at hr
  obtain ⟨i, _, hi⟩ := hr
  rw [← hi]
  have hfold : ∀ (l : List (Nat × Nat)) (best : Option (Nat × Nat)),
      l.foldl (fun best n => SDFExecutor.closer (i % e.Iwidth, i / e.Iwidth) best
        (buf.getD (n.2 * e.Iwidth + n.1) none)) best = best := by
    intro l
    induction l with
    | nil => intro best; rfl
    | cons n t ih =>
      intro best
      rw [List.foldl_cons, getD_unknown buf _ h, ih]
      rfl
  rw [hfold, getD_unknown buf _ h]

theorem passes_unknown (e : SDFExecutor) (steps : List Nat) :
    ∀ buf : List (Option (Nat × Nat)), (∀ r ∈ buf, r = none) →
      ∀ r ∈ steps.foldl (fun buf step => e.jumpFlood step buf) buf, r = none := by
  induction steps with
  | nil => intro buf h; exact h
  | cons s t ih =>
    intro buf h
    rw [List.foldl_cons]
    exact ih _ (jumpFlood_unknown e s buf h)

theorem finalize_unknown (e : SDFExecutor) (root : Nat → ℚ) (imageData : List Nat)
    (threshold : Nat) (buf : List (Option (Nat × Nat))) (h : ∀ r ∈ buf, r = none) :
    e.finalize root imageData threshold buf
      = List.replicate (e.Iwidth * e.Iheight) (e.spread : ℚ) := by
  unfold SDFExecutor.finalize
  rw [List.eq_replicate_iff]
  refine ⟨by simp, ?_⟩
  intro v hv
  simp only [List.mem_map] at hv
  obtain ⟨i, _, hi⟩ := hv
  rw [← hi, getD_unknown buf i h]

theorem seedInit_unknown (e : SDFExecutor) (imageData : List Nat) (threshold : Nat)
    (h : ∀ i, i < e.Iwidth * e.Iheight → imageData.getD i 0 < threshold) :
    ∀ r ∈ e.seedInit imageData threshold, r = none := by
  intro r hr
  simp only [SDFExecutor.seedInit, List.mem_map, List.mem_range] at hr
  obtain ⟨i, hi, hr⟩ := hr
  have := h i hi
  rw [← hr, if_neg]
  simp only [SDFExecutor.isSeed, decide_eq_true_eq]
  omega

theorem resample_replicate (e : SDFExecutor) (n : Nat) :
    e.resample (List.replicate n (e.spread : ℚ))
      = List.replicate (e.Owidth * e.Oheight) (e.spread : ℚ) := by
  unfold SDFExecutor.resample
  rw [List.eq_replicate_iff]
  refine ⟨by simp, ?_⟩
  intro v hv
  simp only [List.mem_map] at hv
  obtain ⟨o, _, ho⟩ := hv
  rw [← ho]
  generalize (o / e.Owidth * e.Iheight / e.Oheight) * e.Iwidth
    + o % e.Owidth * e.Iwidth / e.Owidth = j
  rw [List.getD_eq_getElem?_getD]
  cases hq : (List.replicate n (e.spread : ℚ))[j]? with
  | none => rfl
  | some w => exact List.eq_of_mem_replicate (List.getElem?_mem hq)


/-- Claim C17. Saturation bound of the SDF pipeline: for every configuration, seed
image and threshold, `generateSDFFromImage` writes `Owidth * Oheight` values when the
output has the size of the input or is resampled, every value written has magnitude at
most `spread`, and when no sample of the mask is `>= threshold` every value written is
`+spread`. -/
theorem sdf_saturation_bound (e : SDFExecutor) (root : Nat → ℚ) (imageData : List Nat)
    (threshold : Nat) :
    (e.generateSDFFromImage root imageData threshold).length = e.Owidth * e.Oheight ∧
    (∀ v ∈ e.generateSDFFromImage root imageData threshold, |v| ≤ (e.spread : ℚ)) ∧
    ((∀ i, i < e.Iwidth * e.Iheight → imageData.getD i 0 < threshold) →
      e.generateSDFFromImage root imageData threshold
        = List.replicate (e.Owidth * e.Oheight) (e.spread : ℚ)) := by
  refine ⟨?_, ?_, ?_⟩
  · unfold SDFExecutor.generateSDFFromImage
    dsimp only
    split
    · rename_i h
      simp [SDFExecutor.finalize, h.1, h.2]
    · simp [SDFExecutor.resample]
  · intro v hv
    unfold SDFExecutor.generateSDFFromImage at hv
    dsimp only at hv
    split at hv
    · exact finalize_bound e root imageData threshold _ v hv
    · simp only [SDFExecutor.resample, List.mem_map] at hv
      obtain ⟨o, _, ho⟩ := hv
      rw [← ho]
      exact getD_bound _ _ _ (spread_bound _) (finalize_bound e root imageData threshold _)
  · intro h
    have hbuf := passes_unknown e e.jumpSteps _ (seedInit_unknown e imageData threshold h)
    unfold SDFExecutor.generateSDFFromImage
    dsimp only
    rw [finalize_unknown e root imageData threshold _ hbuf]
    split
    · rename_i hd
      rw [hd.1, hd.2]
    · exact resample_replicate e _

/-- Claim C17, witness: a 2 x 2 mask without a sample `>= 128`, spread 3, resampled to
4 x 4: sixteen values `+3`. -/
theorem sdf_saturation_bound_witness :
    SDFExecutor.generateSDFFromImage ⟨2, 2, 4, 4, 3⟩ (fun n => (n : ℚ)) [0, 127, 5, 100] 128
      = List.replicate (4 * 4) (((⟨2, 2, 4, 4, 3⟩ : SDFExecutor).spread : Nat) : ℚ) :=
  (sdf_saturation_bound ⟨2, 2, 4, 4, 3⟩ (fun n => (n : ℚ)) [0, 127, 5, 100] 128).2.2
    (by decide)


set_option maxRecDepth 100000 in
/-- The passes on a 3 x 3 mask with one seed in the middle: step sizes 2 and 1, and every
pixel resolves the seed; with a seed in a corner of a 4 x 4 mask every pixel resolves
that corner. -/
theorem jumpFlood_single_seed :
    SDFExecutor.jumpSteps ⟨3, 3, 3, 3, 2⟩ = [2, 1] ∧
    (SDFExecutor.jumpSteps ⟨3, 3, 3, 3, 2⟩).foldl
        (fun buf step => SDFExecutor.jumpFlood ⟨3, 3, 3, 3, 2⟩ step buf)
        (SDFExecutor.seedInit ⟨3, 3, 3, 3, 2⟩ [0, 0, 0, 0, 255, 0, 0, 0, 0] 128)
      = List.replicate 9 (some (1, 1)) ∧
    (SDFExecutor.jumpSteps ⟨4, 4, 4, 4, 2⟩).foldl
        (fun buf step => SDFExecutor.jumpFlood ⟨4, 4, 4, 4, 2⟩ step buf)
        (SDFExecutor.seedInit ⟨4, 4, 4, 4, 2⟩
          [0, 0, 0, 0, 0, 0, 0, 0, 0, 0, 0, 0, 0, 0, 0, 200] 128)
      = List.replicate 16 (some (3, 3)) := by
  decide


/-! ## C5: the pixel count of a large header -/

set_option maxRecDepth 100000 in
/-- Claim C5, the code on a header whose product does not fit in 32 bits.  A non-empty buffer
that `_load` returns has the length of the `uint32_t` product of width and height.  For
the header `3 2863311530` (product 8589934590) that count is 4294967294, the size test
passes with `4 * 4294967294` payload bytes, and the `FlipY` loop computes for the row
`targetY = 1431655765` the offset 4294967295, past the end of the vector: a `memcpy`
outside the vector, where the run of the model ends. -/
theorem pixel_count_wraps :
    (∀ host data size J, Reader._load host data size = .ok J → J.pixels ≠ [] →
      J.pixels.length = (J.width * J.height) % 2 ^ 32) ∧
    PFMData.pixelCount { width := 3, height := 2863311530 } = 4294967294 ∧
    4294967294 ≠ 3 * 2863311530 ∧
    (1431655765 * 3) % 2 ^ 32 + 3 > 4294967294 ∧
    Reader._load .little
        (some (headerText 3 2863311530 [45, 49] ++ List.replicate (4 * 4294967294) 0))
        (19 + 4 * 4294967294)
      = .error .memory_fault := by
  refine ⟨load_pixels_count, by decide, by decide, by decide, ?_⟩
  have hlen : (headerText 3 2863311530 [45, 49]).length = 19 := by decide
  have hscale : sscanf_f ([45, 49] ++ 10 :: List.replicate (4 * 4294967294) 0)
      = some ⟨true, 127, 0⟩ :=
    (sscanf_f_line [45, 49] (List.replicate (4 * 4294967294) 0) [] (by decide)
      ⟨45, by decide, by decide⟩).trans (by decide)
  rw [load_header .little 3 2863311530 [45, 49] _ _ (by decide) (by decide) (by decide)
    (by rw [hlen]; omega), hscale]
  simp only []
  rw [if_neg (by rw [hlen]; decide), load_loop_overflow _ _ 3 2863311530 (by decide)]

set_option maxRecDepth 100000 in
/-- Claim C5, witness: a 1 x 2 file on which `_load` returns two pixels. -/
theorem pixel_count_wraps_witness :
    Reader._load .little
        (some (headerText 1 2 [45, 49] ++ payloadBytes [⟨1, 2, 3, 4⟩, ⟨5, 6, 7, 8⟩])) 18
      = .ok { width := 1, height := 2, scaler := ⟨false, 127, 0⟩,
              pixels := [⟨5, 6, 7, 8⟩, ⟨1, 2, 3, 4⟩] } ∧
    [(⟨5, 6, 7, 8⟩ : Cell), ⟨1, 2, 3, 4⟩].length = (1 * 2) % 2 ^ 32 :=
  ⟨by decide,
   pixel_count_wraps.1 .little
    (some (headerText 1 2 [45, 49] ++ payloadBytes [⟨1, 2, 3, 4⟩, ⟨5, 6, 7, 8⟩])) 18
    { width := 1, height := 2, scaler := ⟨false, 127, 0⟩,
      pixels := [⟨5, 6, 7, 8⟩, ⟨1, 2, 3, 4⟩] }
    (by decide) (by decide)⟩

end PFM
